import Mathlib

/-!
Verification development for the inker repository (src/inker.py, src/chonk.py).

The program turns a whiteboard-style video into a "reveal" animation.  Its
algorithmic core is embedded here shallowly:

* a frame is a function from pixel coordinates to an 8-bit intensity value
  (grayscale conversion and cropping are folded into the frame functions,
  since every frame the core touches has already passed through them);
* `find_ink_frame` (the per-pixel debounce scan) is embedded via the
  tail-recursive loops `backGo` (the inner backward walk) and `find_ink_go`
  (the outer forward skip);
* the driver `inker` is embedded as a state machine over `InkSt`, with the
  steady-state block loop as a monadic fold of `steadyStep` and the final
  partial-block case as `finalBlock`; fatal conditions (the "not enough
  frames" assertion, the empty-block `np.concatenate` failure, and the
  "uninked pixel not black in final frame" assertion) are `Except` errors.
-/

set_option maxRecDepth 8000

abbrev Pix := Nat × Nat

abbrev Frame := Pix → Nat

/-- Source `is_black(pixel, threshold)`: a pixel counts as black when its
intensity is strictly below the threshold. -/
def is_black (pixel threshold : Nat) : Bool := decide (pixel < threshold)

/-- Inner `while` loop of `find_ink_frame` (and of the final-block scan):
starting from counter value `y`, keep stepping back while the buffer index
`x - y` is in range and the pixel there is ink; return the final value of
`y`.  The Python condition `is_black(frame_buffer[x-y,i,j]) and x-y >= 0`
continues the loop exactly when `y ≤ x ∧ ink (x - y)`: when `x - y` is `-1`
numpy wraps the read (see `find_ink_reads` for that read), but the conjunct
`x - y >= 0` is false so the loop stops regardless of the wrapped value.
The structural argument `fuel` bounds the remaining iterations so that the
definition computes; each iteration requires `y ≤ x` and increments `y`, so
the `x + 1` fuel supplied by `backRun` is never exhausted (`backGo_spec`
pins the result whenever `x + 1 - y ≤ fuel`). -/
def backGo (ink : Nat → Bool) (x : Nat) : Nat → Nat → Nat
  | 0, y => y
  | fuel + 1, y =>
      if y ≤ x ∧ ink (x - y) = true then backGo ink x fuel (y + 1) else y

/-- Length of the backward ink walk from buffer index `x` (the value of `y`
when the inner loop exits, having started at `y = 0`). -/
def backRun (ink : Nat → Bool) (x : Nat) : Nat := backGo ink x (x + 1) 0

/-- Outer `while x < len(frame_buffer)` loop of `find_ink_frame`, at current
candidate run-end `x`.  On a long enough backward run it returns the run's
first index (`x - y + 1` in the source; `y ≤ x + 1` always holds, so this is
`x + 1 - y` in ℕ), otherwise it skips `x` forward to the next index at which
a run of length `block_size` could end.  `fuel` bounds the remaining
iterations so that the definition computes; each iteration advances `x` by
at least `block_size - backRun ≥ 1`, so the `L + 1` fuel supplied by
`find_ink_frame` is never exhausted (`find_ink_go_spec` pins the result
whenever `L - x ≤ fuel`). -/
def find_ink_go (ink : Nat → Bool) (L bs : Nat) : Nat → Nat → Option Nat
  | 0, _ => none
  | fuel + 1, x =>
      if x < L then
        if bs ≤ backRun ink x then some (x + 1 - backRun ink x)
        else find_ink_go ink L bs fuel (x + bs - backRun ink x)
      else none

/-- Per-pixel ink predicate of a frame buffer: buffer index `k` is ink at
pixel `(i, j)` when `is_black(frame_buffer[k][i][j], bw_cutoff)`. -/
def pixInk (frame_buffer : List Frame) (i j bw_cutoff : Nat) : Nat → Bool :=
  fun k => is_black ((frame_buffer.getD k (fun _ => 0)) (i, j)) bw_cutoff

/-- Source `find_ink_frame(frame_buffer, i, j, block_size, bw_cutoff)`:
find the buffer index at which pixel `(i, j)` gets inked, or `none`. -/
def find_ink_frame (frame_buffer : List Frame) (i j block_size bw_cutoff : Nat) :
    Option Nat :=
  find_ink_go (pixInk frame_buffer i j bw_cutoff) frame_buffer.length block_size
    (frame_buffer.length + 1) (block_size - 1)

/-- Buffer indices read by one full execution of the inner `while` loop at
candidate end `x`: Python evaluates `frame_buffer[x-y,i,j]` on every loop
test (the failing final test included), so the reads are `x - y` for
`y = 0, …, backGo`-result; the final read is `-1` when the walk runs off the
front of the buffer. -/
def innerReads (ink : Nat → Bool) (x : Nat) : List Int :=
  (List.range (backRun ink x + 1)).map (fun (k : Nat) => (x : Int) - (k : Int))

/-- All buffer indices read from `frame_buffer` during `find_ink_frame`'s
backward walks, in evaluation order (`fuel` as in `find_ink_go`). -/
def find_ink_go_reads (ink : Nat → Bool) (L bs : Nat) : Nat → Nat → List Int
  | 0, _ => []
  | fuel + 1, x =>
      if x < L then
        innerReads ink x ++
          (if bs ≤ backRun ink x then []
           else find_ink_go_reads ink L bs fuel (x + bs - backRun ink x))
      else []

/-- Reads performed by `find_ink_frame(frame_buffer, i, j, block_size, bw_cutoff)`. -/
def find_ink_reads (frame_buffer : List Frame) (i j block_size bw_cutoff : Nat) :
    List Int :=
  find_ink_go_reads (pixInk frame_buffer i j bw_cutoff) frame_buffer.length
    block_size (frame_buffer.length + 1) (block_size - 1)

/-! ### The driver (`inker`) as a state machine -/

/-- Run configuration: everything `inker` obtains from the reader's metadata,
`get_parameters()` and `get_crop()` before processing starts.  `raw k` is the
k-th raw frame of the source, already cropped to the `H × W` crop rectangle
and converted to grayscale (the Preprocessor steps, folded into the frame
functions); `refFrame` is the late reference frame fetched for the mask,
likewise cropped and grayscaled. -/
structure Cfg where
  raw : Nat → Frame
  total : Nat
  refFrame : Frame
  H : Nat
  W : Nat
  stride : Nat
  block_size : Nat
  bw_cutoff : Nat
  only_ink_frames : Bool
  outro_length : Int
  fps : ℚ

/-- Number of effective frames the exhausted reader actually yields: raw
indices `0, stride, 2*stride, …` below `total`, i.e. `⌈total / stride⌉`.
The driver's own bookkeeping uses `eff_frames = total / stride` (floor),
which is one less when `stride` does not divide `total`. -/
def effCount (total stride : Nat) : Nat := (total + stride - 1) / stride

/-- Source `read_block(reader, block_size, stride, crop)`: read up to
`block_size * stride` raw frames starting at reader position `pos` (stopping
silently at end of stream) and keep every `stride`-th of them.  Grayscale and
crop are already folded into `raw`.  After the call the reader stands at
`pos + block_size * stride`; reads past the end of the stream yield nothing,
like the exhausted Python reader. -/
def read_block (raw : Nat → Frame) (total pos block_size stride : Nat) : List Frame :=
  ((List.range (block_size * stride)).filter
      (fun i => decide (pos + i < total) && decide (i % stride = 0))).map
    (fun i => raw (pos + i))

/-- Steady-loop front-block rewrite `np.where(ink_frame <= current_frame, 0, 255)`. -/
def renderS (ink_frame : Pix → Nat) (current_frame : Nat) : Frame :=
  fun p => if ink_frame p ≤ current_frame then 0 else 255

/-- Final-block rewrite `np.where(ink_frame > current_frame, 255, 0)`. -/
def renderF (ink_frame : Pix → Nat) (current_frame : Nat) : Frame :=
  fun p => if current_frame < ink_frame p then 255 else 0

/-- Pointwise matrix assignment `ink_frame[i][j] = v`. -/
def updF (m : Pix → Nat) (q : Pix) (v : Nat) : Pix → Nat :=
  fun p => if p = q then v else m p

/-- Python `int(x)` on the exact rational value of `outro_length * fps`:
truncation toward zero. -/
def pyInt (q : ℚ) : Int := q.num.tdiv (q.den : Int)

/-- Fatal conditions of a run: the `assert eff_frames > 2*block_size`
("not enough frames") failure, the `np.concatenate` `ValueError` raised when
`read_block` returns an empty array mid-loop (re-raised with the block number
as diagnostic), and the final-block `assert False, "uninked pixel not black
in final frame"`. -/
inductive Fatal where
  | notEnoughFrames
  | readCrash (block_number : Nat)
  | uninkedNotBlack
deriving DecidableEq

/-- Mutable state of the main processing loop. -/
structure InkSt where
  uninked : List Pix
  inkF : Pix → Nat
  buffer : List Frame
  pos : Nat
  out : List (Nat × Frame)

/-- Steady-loop scan `for [i,j] in uninked: f = find_ink_frame(...)`: the
newly inked pixels, in `uninked` order, paired with the buffer index at which
each inks (`new_inked_pixels` zipped with `new_inked_frames`). -/
def scanBlock (frame_buffer : List Frame) (block_size bw_cutoff : Nat)
    (uninked : List Pix) : List (Pix × Nat) :=
  uninked.filterMap (fun p =>
    (find_ink_frame frame_buffer p.1 p.2 block_size bw_cutoff).map (fun f => (p, f)))

/-- One iteration of the steady-state block loop (source lines 238–288):
scan for new ink frames, record them in the matrix, drop the newly inked
pixels from `uninked`, rewrite and emit the front block (each written frame
carries its global frame index as specification instrumentation), then slide
the window: drop the front block and append a freshly read block, failing
like `np.concatenate` does when the read comes back empty. -/
def steadyStep (c : Cfg) (st : InkSt) (block_number : Nat) : Except Fatal InkSt :=
  let bs := c.block_size
  let newInked := scanBlock st.buffer bs c.bw_cutoff st.uninked
  let inkF2 := newInked.foldl (fun m pf => updF m pf.1 (block_number * bs + pf.2)) st.inkF
  let uninked2 := (newInked.map Prod.fst).foldl (fun l p => l.erase p) st.uninked
  let new_inked_frames := newInked.map Prod.snd
  let outAdd := (List.range bs).filterMap (fun f =>
    if c.only_ink_frames && !(new_inked_frames.contains f) then none
    else some (block_number * bs + f, renderS inkF2 (block_number * bs + f)))
  let newBlock := read_block c.raw c.total st.pos bs c.stride
  if newBlock.isEmpty then Except.error (Fatal.readCrash block_number)
  else Except.ok
    { uninked := uninked2
      inkF := inkF2
      buffer := st.buffer.drop bs ++ newBlock
      pos := st.pos + bs * c.stride
      out := st.out ++ outAdd }

/-- Per-pixel step of the final-block scan (source lines 300–313): the pixel
must be black at the buffer's last frame (else the
`"uninked pixel not black in final frame"` assertion fires); walk back
through the closing ink run and record its start.  The accumulator carries
`(ink_frame, new_inked_pixels, new_inked_frames)`. -/
def finalScanStep (frame_buffer : List Frame) (bw_cutoff block_size block_number : Nat)
    (acc : (Pix → Nat) × List Pix × List Nat) (p : Pix) :
    Except Fatal ((Pix → Nat) × List Pix × List Nat) :=
  let x := frame_buffer.length - 1
  if is_black ((frame_buffer.getD x (fun _ => 0)) p) bw_cutoff then
    let y := backRun (pixInk frame_buffer p.1 p.2 bw_cutoff) x
    let f := x + 1 - y
    Except.ok (updF acc.1 p (block_number * block_size + f), acc.2.1 ++ [p], acc.2.2 ++ [f])
  else Except.error Fatal.uninkedNotBlack

/-- Result of a completed run: the written frames with their global frame
indices, the outro, and the final matrix/uninked-list/rendered-buffer state. -/
structure RunResult where
  out : List (Nat × Frame)
  outro : List Frame
  ink_frame : Pix → Nat
  uninked : List Pix
  finalBuf : List Frame

/-- Final processing once the steady loop runs out of blocks (source lines
290–330): scan every still-uninked pixel backward from the buffer's last
frame, rewrite the whole remaining buffer, emit it (subject to the ink-only
skip), and append the outro: `int(outro_length * fps)` copies of
`frame_buffer[-1]`. -/
def finalBlock (c : Cfg) (st : InkSt) : Except Fatal RunResult :=
  let bs := c.block_size
  let eff := c.total / c.stride
  let block_number := eff / bs - 1
  let L := st.buffer.length
  (st.uninked.foldlM (finalScanStep st.buffer c.bw_cutoff bs block_number)
      (st.inkF, ([] : List Pix), ([] : List Nat))).map (fun res =>
    let inkF2 := res.1
    let new_inked_pixels := res.2.1
    let new_inked_frames := res.2.2
    let uninked2 := new_inked_pixels.foldl (fun l p => l.erase p) st.uninked
    let rendered := (List.range L).map (fun f => renderF inkF2 (block_number * bs + f))
    let outAdd := (List.range L).filterMap (fun f =>
      if c.only_ink_frames && !(new_inked_frames.contains f) then none
      else some (block_number * bs + f, renderF inkF2 (block_number * bs + f)))
    { out := st.out ++ outAdd
      outro := List.replicate (pyInt ((c.outro_length : ℚ) * c.fps)).toNat
        (rendered.getLastD (fun _ => 0))
      ink_frame := inkF2
      uninked := uninked2
      finalBuf := rendered })

/-- Pixel coordinates in numpy row-major order (the order `np.where` reports
and hence the order of the `uninked` list). -/
def rowMajor (H W : Nat) : List Pix :=
  (List.range H).flatMap (fun i => (List.range W).map (fun j => (i, j)))

/-- Initial state: `uninked` holds the pixels black in the reference frame,
the matrix is all-sentinel (`eff_frames`), and the window holds the first two
blocks. -/
def initSt (c : Cfg) : InkSt :=
  { uninked := (rowMajor c.H c.W).filter (fun p => is_black (c.refFrame p) c.bw_cutoff)
    inkF := fun _ => c.total / c.stride
    buffer := read_block c.raw c.total 0 c.block_size c.stride ++
      read_block c.raw c.total (c.block_size * c.stride) c.block_size c.stride
    pos := 2 * (c.block_size * c.stride)
    out := [] }

/-- State after the first `b` iterations of the steady-state loop. -/
def statesUpTo (c : Cfg) (b : Nat) : Except Fatal InkSt :=
  (List.range b).foldlM (steadyStep c) (initSt c)

/-- Source `inker(reader, writer)`: the whole run.  The interactive
parameter/crop collection and the reference-frame fetch happen at the
collaborator boundary and arrive through `c`. -/
def inker (c : Cfg) : Except Fatal RunResult :=
  let eff := c.total / c.stride
  let bs := c.block_size
  if eff ≤ 2 * bs then Except.error Fatal.notEnoughFrames
  else statesUpTo c (eff / bs - 1) >>= finalBlock c

/-- Reference-frame fetch loop (source lines 190–197): try
`reader.get_data(total_frames - n)` with `n = 1` and on `IndexError` retry
with `n` increased by `stride`.  `ok idx` says whether the external decoder
can produce frame `idx`; `fuel` bounds how many iterations we observe, and
`none` means the loop is still running after `fuel` attempts. -/
def get_data_retry (ok : Int → Bool) (total stride : Nat) : Nat → Nat → Option Int
  | 0, _ => none
  | fuel + 1, n =>
      if ok ((total : Int) - (n : Int)) then some ((total : Int) - (n : Int))
      else get_data_retry ok total stride fuel (n + stride)

/-- An all-ink window of `bs` consecutive frames starting at buffer index `g`. -/
def inkWin (ink : Nat → Bool) (bs g : Nat) : Prop := ∀ k < bs, ink (g + k) = true

/-- Index `f` heads the earliest sustained ink run: a window of `bs` ink
frames starts at `f` and lies in the buffer, the frame before `f` (if any)
is not ink, and no `bs`-long ink window starts before `f`. -/
def goodStart (ink : Nat → Bool) (L bs f : Nat) : Prop :=
  f + bs ≤ L ∧ inkWin ink bs f ∧ (f = 0 ∨ ink (f - 1) = false) ∧
  ∀ g < f, ¬ (g + bs ≤ L ∧ inkWin ink bs g)

/-- Transition offset recorded for a pixel by the final-block backward scan:
with `x = len(frame_buffer) - 1`, the scan records `x - y + 1` where `y` is
the length of the closing ink run (`y ≤ x + 1`, so in ℕ this is `x + 1 - y`). -/
def finalF (frame_buffer : List Frame) (bw_cutoff : Nat) (p : Pix) : Nat :=
  frame_buffer.length - 1 + 1 -
    backRun (pixInk frame_buffer p.1 p.2 bw_cutoff) (frame_buffer.length - 1)

/-- Loop invariant of the steady-state block loop, holding for the state
after `b` iterations: `uninked` has no duplicates, unresolved pixels still
hold the sentinel `eff_frames`, every recorded transition leaves at least one
block of room below `eff_frames`, the reader position and window length
follow the block index, and every written frame was rendered from the matrix
as it stood and lies strictly inside the blocks processed so far. -/
def InvSt (c : Cfg) (b : Nat) (st : InkSt) : Prop :=
  st.uninked.Nodup ∧
  (∀ p ∈ st.uninked, st.inkF p = c.total / c.stride) ∧
  (∀ p, st.inkF p = c.total / c.stride ∨
    st.inkF p + c.block_size ≤ c.total / c.stride) ∧
  st.pos = (b + 2) * c.block_size * c.stride ∧
  st.buffer.length =
    min (effCount c.total c.stride) ((b + 2) * c.block_size) - b * c.block_size ∧
  (∀ gf ∈ st.out, gf.1 < b * c.block_size ∧
    ∀ p, gf.2 p = renderS st.inkF gf.1 p)

/-! ### Concrete test scenarios -/

/-- All-white test frame. -/
def whiteF : Frame := fun _ => 200

/-- All-black test frame. -/
def blackF : Frame := fun _ => 0

/-- Raw stream built from a finite list of frames (reads past the end return
a default frame; the driver never performs them). -/
def listRaw (l : List Frame) : Nat → Frame := fun k => l.getD k (fun _ => 0)

/-- One-pixel test configuration with cutoff 100. -/
def onePix (frames : List Frame) (ref : Frame) (stride bs : Nat) (oif : Bool)
    (outro : Int) (fps : ℚ) : Cfg :=
  { raw := listRaw frames, total := frames.length, refFrame := ref, H := 1, W := 1,
    stride := stride, block_size := bs, bw_cutoff := 100, only_ink_frames := oif,
    outro_length := outro, fps := fps }

/-- Scenario A: block_size 2, 7 effective frames, the single pixel white on
frames 0–1 and black from frame 2 on, ink-only mode.  Its sustained run ends
at the lookahead's last frame, so the scan records local offset 2 (equal to
`block_size`) in block 0. -/
def cfgA : Cfg :=
  onePix [whiteF, whiteF, blackF, blackF, blackF, blackF, blackF] blackF 1 2 true 0 30

/-- Scenario B: stride 2 over 7 raw frames — `eff_frames = 3`, but the reader
yields a fourth effective frame (raw frame 6) — block_size 1, and the pixel
is white on every effective frame except that extra last one. -/
def cfgB : Cfg :=
  onePix [whiteF, whiteF, whiteF, whiteF, whiteF, whiteF, blackF] blackF 2 1 false 0 30

/-- The rational 7/4, as an explicit normalized literal (1.75 frames per
second for the outro scenarios). -/
def fps74 : ℚ := ⟨7, 4, by decide, by decide⟩

/-- Scenario C: an all-white pixel, outro of 1 second at 1.75 fps. -/
def cfgC : Cfg := onePix [whiteF, whiteF, whiteF, whiteF, whiteF] whiteF 1 2 false 1 fps74

/-- Scenario D: a small completing run whose pixel inks at frame 1. -/
def cfgD : Cfg := onePix [whiteF, blackF, blackF, blackF, blackF] blackF 1 2 false 1 fps74

/-- Payload of the (completing) run on `cfgD`. -/
def resD : RunResult :=
  (inker cfgD).toOption.getD
    { out := [], outro := [], ink_frame := fun _ => 0, uninked := [], finalBuf := [] }

/-- Payload of the (completing) run on `cfgB`. -/
def resB : RunResult :=
  (inker cfgB).toOption.getD
    { out := [], outro := [], ink_frame := fun _ => 0, uninked := [], finalBuf := [] }

/-! ### Theorems -/

unseal Rat.mul Rat.add Rat.sub Rat.inv

/-! ### Characterization of the inner backward walk -/

theorem backGo_spec (ink : Nat → Bool) (x : Nat) :
    ∀ fuel y, y ≤ x + 1 → x + 1 - y ≤ fuel →
    (∀ k, y ≤ k → k < backGo ink x fuel y → ink (x - k) = true) ∧
    y ≤ backGo ink x fuel y ∧ backGo ink x fuel y ≤ x + 1 ∧
    (backGo ink x fuel y ≤ x → ink (x - backGo ink x fuel y) = false) := by
  intro fuel
  induction fuel with
  | zero =>
    intro y hy1 hy
    simp only [backGo]
    exact ⟨fun k hk1 hk2 => absurd hk1 (by omega), le_refl _, hy1,
      fun hyx => absurd hyx (by omega)⟩
  | succ n ih =>
    intro y hy1 hy
    simp only [backGo]
    split
    · rename_i h
      obtain ⟨ih1, ih2, ih3, ih4⟩ := ih (y + 1) (by omega) (by omega)
      refine ⟨fun k hk1 hk2 => ?_, by omega, ih3, ih4⟩
      rcases Nat.eq_or_lt_of_le hk1 with heq | hlt
      · simpa [← heq] using h.2
      · exact ih1 k hlt hk2
    · rename_i h
      refine ⟨fun k hk1 hk2 => absurd hk1 (by omega), le_refl _, hy1, fun hyx => ?_⟩
      by_cases hi : ink (x - y) = true
      · exact absurd ⟨hyx, hi⟩ h
      · simpa using hi

theorem backRun_ink (ink : Nat → Bool) (x : Nat) :
    ∀ k < backRun ink x, ink (x - k) = true :=
  fun k hk => (backGo_spec ink x (x + 1) 0 (by omega) (by omega)).1 k (Nat.zero_le k) hk

theorem backRun_le (ink : Nat → Bool) (x : Nat) : backRun ink x ≤ x + 1 :=
  (backGo_spec ink x (x + 1) 0 (by omega) (by omega)).2.2.1

theorem backRun_stop (ink : Nat → Bool) (x : Nat) :
    backRun ink x ≤ x → ink (x - backRun ink x) = false :=
  (backGo_spec ink x (x + 1) 0 (by omega) (by omega)).2.2.2

/-- The walk length is maximal: any backward all-ink run from `x` is a lower
bound for `backRun`. -/
theorem backRun_ge (ink : Nat → Bool) (x m : Nat) (hm : m ≤ x + 1)
    (hink : ∀ k < m, ink (x - k) = true) : m ≤ backRun ink x := by
  by_contra hlt
  push_neg at hlt
  have hle : backRun ink x ≤ x := by omega
  have := backRun_stop ink x hle
  have := hink (backRun ink x) hlt
  simp_all

theorem backRun_pos (ink : Nat → Bool) (x : Nat) (h : ink x = true) :
    1 ≤ backRun ink x :=
  backRun_ge ink x 1 (by omega) (fun k hk => by
    interval_cases k
    simpa using h)

/-! ### Characterization of the outer scan loop -/

theorem find_ink_go_spec (ink : Nat → Bool) (L bs : Nat) (hbs : 1 ≤ bs) :
    ∀ fuel x, bs - 1 ≤ x → (∀ g, g + bs ≤ x → ¬ inkWin ink bs g) → L - x ≤ fuel →
    (∀ f, find_ink_go ink L bs fuel x = some f ↔ goodStart ink L bs f) ∧
    (find_ink_go ink L bs fuel x = none ↔
      ∀ g, g + bs ≤ L → ¬ inkWin ink bs g) := by
  intro fuel
  induction fuel with
  | zero =>
    intro x hx hI hfuel
    simp only [find_ink_go]
    constructor
    · intro f
      constructor
      · intro h
        exact absurd h (by simp)
      · intro hgs
        have h1 := hgs.1
        exact absurd hgs.2.1 (hI f (by omega))
    · constructor
      · intro _ g hg
        exact hI g (by omega)
      · intro _
        trivial
  | succ n ih =>
    intro x hx hI hfuel
    simp only [find_ink_go]
    by_cases hxL : x < L
    · rw [if_pos hxL]
      by_cases hy : bs ≤ backRun ink x
      · -- a sustained run was found ending at x
        rw [if_pos hy]
        have hyle := backRun_le ink x
        set y := backRun ink x with hydef
        have hwin : inkWin ink bs (x + 1 - y) := by
          intro k hk
          have hk' : y - 1 - k < y := by omega
          have heq : x + 1 - y + k = x - (y - 1 - k) := by omega
          rw [heq]
          exact backRun_ink ink x _ hk'
        have hminimal : ∀ g < x + 1 - y, ¬ (g + bs ≤ L ∧ inkWin ink bs g) := by
          intro g hg hcon
          exact hI g (by omega) hcon.2
        have hgs : goodStart ink L bs (x + 1 - y) := by
          refine ⟨by omega, hwin, ?_, hminimal⟩
          by_cases h0 : x + 1 - y = 0
          · exact Or.inl h0
          · refine Or.inr ?_
            have hyx : y ≤ x := by omega
            have := backRun_stop ink x hyx
            have heq : x + 1 - y - 1 = x - y := by omega
            rw [heq]
            exact this
        constructor
        · intro f
          constructor
          · intro h
            have : x + 1 - y = f := by simpa using h
            rw [← this]
            exact hgs
          · intro hf
            have hfeq : f = x + 1 - y := by
              rcases Nat.lt_trichotomy f (x + 1 - y) with h1 | h2 | h3
              · exact absurd ⟨hf.1, hf.2.1⟩ (hminimal f h1)
              · exact h2
              · exact absurd ⟨hgs.1, hgs.2.1⟩ (hf.2.2.2 (x + 1 - y) h3)
            rw [hfeq]
        · constructor
          · intro h
            exact absurd h (by simp)
          · intro h
            exact absurd hwin (h (x + 1 - y) (by omega))
      · -- run too short: skip forward past the white frame
        rw [if_neg hy]
        have hyle := backRun_le ink x
        set y := backRun ink x with hydef
        have hyx : y ≤ x := by omega
        have hstop := backRun_stop ink x hyx
        refine ih (x + bs - y) (by omega) ?_ (by omega)
        intro g hg hwin
        by_cases hgx : g + bs ≤ x
        · exact hI g hgx hwin
        · have hk : x - y - g < bs := by omega
          have := hwin (x - y - g) hk
          have heq : g + (x - y - g) = x - y := by omega
          rw [heq] at this
          simp [hstop] at this
    · rw [if_neg hxL]
      constructor
      · intro f
        constructor
        · intro h
          exact absurd h (by simp)
        · intro hgs
          have h1 := hgs.1
          exact absurd hgs.2.1 (hI f (by omega))
      · constructor
        · intro _ g hg
          exact hI g (by omega)
        · intro _
          trivial

/-- Full functional characterization of `find_ink_frame`: it returns the head
index of the earliest sustained (length ≥ `block_size`) ink run of the pixel
that lies entirely in the buffer, and `none` exactly when there is none. -/
theorem find_ink_frame_spec (fb : List Frame) (i j bs cutoff : Nat) (hbs : 1 ≤ bs) :
    (∀ f, find_ink_frame fb i j bs cutoff = some f ↔
        goodStart (pixInk fb i j cutoff) fb.length bs f) ∧
    (find_ink_frame fb i j bs cutoff = none ↔
        ∀ g, g + bs ≤ fb.length → ¬ inkWin (pixInk fb i j cutoff) bs g) := by
  have := find_ink_go_spec (pixInk fb i j cutoff) fb.length bs hbs
    (fb.length + 1) (bs - 1) (le_refl _) (fun g hg => absurd hg (by omega))
    (by omega)
  exact this

/-! ### Generic plumbing lemmas -/

theorem exceptBind_ok {ε α β : Type} {e : Except ε α} {f : α → Except ε β} {b : β}
    (h : (e >>= f) = .ok b) : ∃ a, e = .ok a ∧ f a = .ok b := by
  cases e with
  | error e2 => simp [Bind.bind, Except.bind] at h
  | ok a => exact ⟨a, rfl, by simpa [Bind.bind, Except.bind] using h⟩

theorem exceptMap_ok {ε α β : Type} {e : Except ε α} {f : α → β} {b : β}
    (h : (Except.map f e) = .ok b) : ∃ a, e = .ok a ∧ f a = b := by
  cases e with
  | error e2 => simp [Except.map] at h
  | ok a => exact ⟨a, rfl, by simpa [Except.map] using h⟩

theorem foldlM_error_cases {σ α ε : Type} (step : σ → α → Except ε σ) (P : ε → Prop)
    (hstep : ∀ s a e, step s a = .error e → P e) :
    ∀ (l : List α) (s : σ) (e : ε), l.foldlM step s = .error e → P e := by
  intro l
  induction l with
  | nil => intro s e h; simp [List.foldlM_nil, pure, Except.pure] at h
  | cons a t ih =>
    intro s e h
    rw [List.foldlM_cons] at h
    cases hs : step s a with
    | error e2 =>
      rw [hs] at h
      simp [Bind.bind, Except.bind] at h
      rw [← h]
      exact hstep s a e2 hs
    | ok s2 =>
      rw [hs] at h
      simp only [Bind.bind, Except.bind] at h
      exact ih s2 e h

theorem statesUpTo_succ (c : Cfg) (b : Nat) :
    statesUpTo c (b + 1) = statesUpTo c b >>= fun st => steadyStep c st b := by
  unfold statesUpTo
  rw [List.range_succ, List.foldlM_append]
  simp [List.foldlM_cons, List.foldlM_nil]

theorem statesUpTo_zero (c : Cfg) : statesUpTo c 0 = .ok (initSt c) := rfl

/-! ### Fold characterizations for the matrix and the uninked list -/

theorem updFold_not_mem (off : Nat) :
    ∀ (l : List (Pix × Nat)) (m : Pix → Nat) (p : Pix), p ∉ l.map Prod.fst →
      (l.foldl (fun m2 pf => updF m2 pf.1 (off + pf.2)) m) p = m p := by
  intro l
  induction l with
  | nil => intro m p _; rfl
  | cons a t ih =>
    intro m p hp
    simp only [List.map_cons, List.mem_cons] at hp
    push_neg at hp
    rw [List.foldl_cons]
    rw [ih _ p hp.2]
    simp [updF, hp.1]

theorem updFold_mem (off : Nat) :
    ∀ (l : List (Pix × Nat)), (l.map Prod.fst).Nodup →
      ∀ (m : Pix → Nat) (p : Pix) (f : Nat), (p, f) ∈ l →
      (l.foldl (fun m2 pf => updF m2 pf.1 (off + pf.2)) m) p = off + f := by
  intro l
  induction l with
  | nil => intro _ m p f h; simp at h
  | cons a t ih =>
    intro hnd m p f hm
    rw [List.map_cons, List.nodup_cons] at hnd
    rw [List.foldl_cons]
    rcases List.mem_cons.1 hm with heq | ht
    · subst heq
      have hnotin : p ∉ t.map Prod.fst := by simpa using hnd.1
      rw [updFold_not_mem off t _ p hnotin]
      simp [updF]
    · exact ih hnd.2 _ p f ht

theorem eraseFold_mem :
    ∀ (keys : List Pix) (u : List Pix), u.Nodup →
      ∀ p, (p ∈ keys.foldl (fun l q => l.erase q) u ↔ p ∈ u ∧ p ∉ keys) := by
  intro keys
  induction keys with
  | nil => intro u _ p; simp
  | cons k t ih =>
    intro u hnd p
    rw [List.foldl_cons]
    rw [ih (u.erase k) (hnd.erase k) p]
    rw [hnd.mem_erase_iff]
    simp only [List.mem_cons]
    constructor
    · rintro ⟨⟨h1, h2⟩, h3⟩
      exact ⟨h2, by rintro (rfl | hk) <;> [exact h1 rfl; exact h3 hk]⟩
    · rintro ⟨h1, h2⟩
      push_neg at h2
      exact ⟨⟨h2.1, h1⟩, h2.2⟩

theorem eraseFold_nodup :
    ∀ (keys : List Pix) (u : List Pix), u.Nodup →
      (keys.foldl (fun l q => l.erase q) u).Nodup := by
  intro keys
  induction keys with
  | nil => intro u hnd; exact hnd
  | cons k t ih =>
    intro u hnd
    rw [List.foldl_cons]
    exact ih _ (hnd.erase k)

/-! ### The scan as a filter over the uninked list -/

theorem scanBlock_mem (fb : List Frame) (bs cutoff : Nat) (u : List Pix)
    (p : Pix) (f : Nat) :
    (p, f) ∈ scanBlock fb bs cutoff u ↔
      p ∈ u ∧ find_ink_frame fb p.1 p.2 bs cutoff = some f := by
  unfold scanBlock
  rw [List.mem_filterMap]
  constructor
  · rintro ⟨q, hq, hopt⟩
    cases hfind : find_ink_frame fb q.1 q.2 bs cutoff with
    | none => rw [hfind] at hopt; simp at hopt
    | some g =>
      rw [hfind] at hopt
      simp only [Option.map_some', Option.some.injEq, Prod.mk.injEq] at hopt
      obtain ⟨rfl, rfl⟩ := hopt
      exact ⟨hq, hfind⟩
  · rintro ⟨hp, hfind⟩
    exact ⟨p, hp, by rw [hfind]; rfl⟩

theorem scanBlock_keys (fb : List Frame) (bs cutoff : Nat) :
    ∀ (u : List Pix), (scanBlock fb bs cutoff u).map Prod.fst =
      u.filter (fun p => (find_ink_frame fb p.1 p.2 bs cutoff).isSome) := by
  intro u
  induction u with
  | nil => rfl
  | cons q t ih =>
    simp only [scanBlock, List.filterMap_cons] at ih ⊢
    cases hfind : find_ink_frame fb q.1 q.2 bs cutoff with
    | none => simp [hfind, ih, List.filter_cons]
    | some f => simp [hfind, ih, List.filter_cons]

theorem scanBlock_keys_nodup (fb : List Frame) (bs cutoff : Nat) (u : List Pix)
    (hnd : u.Nodup) : ((scanBlock fb bs cutoff u).map Prod.fst).Nodup := by
  rw [scanBlock_keys]
  exact (List.filter_sublist u).nodup hnd

theorem scanBlock_keys_sub (fb : List Frame) (bs cutoff : Nat) (u : List Pix)
    (p : Pix) (hp : p ∈ (scanBlock fb bs cutoff u).map Prod.fst) : p ∈ u := by
  rw [scanBlock_keys] at hp
  exact List.mem_of_mem_filter hp

/-! ### How many frames a block read yields -/

theorem effCount_iff (total s k : Nat) (hs : 1 ≤ s) :
    k * s < total ↔ k < effCount total s := by
  unfold effCount
  set t := k * s with ht
  constructor
  · intro h
    have h2 : k + 1 ≤ (total + s - 1) / s := by
      rw [Nat.le_div_iff_mul_le (by omega : 0 < s), Nat.add_mul, Nat.one_mul, ← ht]
      omega
    exact h2
  · intro h
    have h2 : k + 1 ≤ (total + s - 1) / s := h
    rw [Nat.le_div_iff_mul_le (by omega : 0 < s), Nat.add_mul, Nat.one_mul, ← ht] at h2
    omega

theorem eff_le_effCount (total s : Nat) (hs : 1 ≤ s) : total / s ≤ effCount total s := by
  unfold effCount
  exact Nat.div_le_div_right (by omega)

theorem effCount_le (total s : Nat) (hs : 1 ≤ s) :
    effCount total s ≤ total / s + 1 := by
  unfold effCount
  have h1 : (total + s - 1) / s ≤ (total + s) / s :=
    Nat.div_le_div_right (by omega)
  rw [Nat.add_div_right total (by omega : 0 < s)] at h1
  exact h1

theorem effCount_dvd (total s : Nat) (hs : 1 ≤ s) (hd : total % s = 0) :
    effCount total s = total / s := by
  have h0 : s * (total / s) = total := by
    have := Nat.div_add_mod total s
    omega
  unfold effCount
  have h2 : total + s - 1 = s - 1 + s * (total / s) := by omega
  rw [h2, Nat.add_mul_div_left _ _ (by omega : 0 < s),
    Nat.div_eq_of_lt (by omega : s - 1 < s)]
  omega

theorem filter_mod_range (s : Nat) (hs : 1 ≤ s) :
    ∀ bs, (List.range (bs * s)).filter (fun i => decide (i % s = 0)) =
      (List.range bs).map (fun k => k * s) := by
  intro bs
  induction bs with
  | zero => simp
  | succ m ih =>
    have hes : (m + 1) * s = m * s + s := by ring
    rw [hes, List.range_add, List.filter_append, ih, List.range_succ, List.map_append]
    congr 1
    obtain ⟨u, rfl⟩ : ∃ u, s = u + 1 := ⟨s - 1, by omega⟩
    rw [List.range_succ_eq_map, List.map_cons, List.map_map, List.filter_cons]
    have hhead : (m * (u + 1) + 0) % (u + 1) = 0 := by
      simp [Nat.mul_mod_left]
    rw [if_pos (by simp [hhead])]
    have htail : (((List.range u).map ((fun x => m * (u + 1) + x) ∘ Nat.succ)).filter
        (fun i => decide (i % (u + 1) = 0))) = [] := by
      rw [List.filter_eq_nil_iff]
      intro a ha
      rw [List.mem_map] at ha
      obtain ⟨x, hx, rfl⟩ := ha
      rw [List.mem_range] at hx
      simp only [Function.comp_apply, decide_eq_true_eq]
      have h1 : (m * (u + 1) + Nat.succ x) % (u + 1) = Nat.succ x % (u + 1) := by
        rw [Nat.add_comm]
        exact Nat.add_mul_mod_self_right _ _ _
      rw [h1, Nat.mod_eq_of_lt (by omega)]
      omega
    rw [htail]
    simp

theorem length_filter_range_lt (n c : Nat) :
    ((List.range n).filter (fun k => decide (k < c))).length = min n c := by
  induction n with
  | zero => simp
  | succ m ih =>
    rw [List.range_succ, List.filter_append, List.length_append, ih]
    by_cases hc : m < c
    · rw [List.filter_cons, if_pos (by simpa using hc)]
      simp only [List.filter_nil, List.length_cons, List.length_nil]
      omega
    · rw [List.filter_cons, if_neg (by simpa using hc)]
      simp only [List.filter_nil, List.length_nil]
      omega

theorem read_block_length (raw : Nat → Frame) (total s : Nat) (hs : 1 ≤ s)
    (d bs : Nat) :
    (read_block raw total (d * s) bs s).length =
      min bs (effCount total s - d) := by
  unfold read_block
  rw [List.length_map]
  have hsplit : ((List.range (bs * s)).filter
      (fun i => decide (d * s + i < total) && decide (i % s = 0))) =
      ((List.range (bs * s)).filter (fun i => decide (i % s = 0))).filter
        (fun i => decide (d * s + i < total)) := by
    rw [List.filter_filter]
  rw [hsplit, filter_mod_range s hs bs, List.filter_map, List.length_map]
  have hcong : ((List.range bs).filter ((fun i => decide (d * s + i < total)) ∘
      (fun k => k * s))) = (List.range bs).filter
        (fun k => decide (k < effCount total s - d)) := by
    apply List.filter_congr
    intro k _
    simp only [Function.comp_apply, decide_eq_decide]
    have h1 : d * s + k * s = (d + k) * s := by ring
    rw [h1, effCount_iff total s (d + k) hs]
    omega
  rw [hcong, length_filter_range_lt]

/-! ### One steady-state iteration, unpacked -/

theorem steadyStep_ok_parts {c : Cfg} {st st' : InkSt} {b : Nat}
    (h : steadyStep c st b = .ok st') :
    st'.uninked = ((scanBlock st.buffer c.block_size c.bw_cutoff st.uninked).map
        Prod.fst).foldl (fun l p => l.erase p) st.uninked ∧
    st'.inkF = (scanBlock st.buffer c.block_size c.bw_cutoff st.uninked).foldl
        (fun m2 pf => updF m2 pf.1 (b * c.block_size + pf.2)) st.inkF ∧
    st'.buffer = st.buffer.drop c.block_size ++
        read_block c.raw c.total st.pos c.block_size c.stride ∧
    (read_block c.raw c.total st.pos c.block_size c.stride).isEmpty = false ∧
    st'.pos = st.pos + c.block_size * c.stride ∧
    st'.out = st.out ++ (List.range c.block_size).filterMap (fun f =>
      if c.only_ink_frames &&
          !(((scanBlock st.buffer c.block_size c.bw_cutoff st.uninked).map
            Prod.snd).contains f) then none
      else some (b * c.block_size + f, renderS st'.inkF (b * c.block_size + f))) := by
  simp only [steadyStep] at h
  split at h
  · exact absurd h (by simp)
  · rename_i hc
    injection h with h2
    subst h2
    refine ⟨rfl, rfl, rfl, ?_, rfl, rfl⟩
    simp only [Bool.not_eq_true] at hc
    exact hc

theorem keys_mem_exists {scan : List (Pix × Nat)} {p : Pix}
    (hp : p ∈ scan.map Prod.fst) : ∃ f, (p, f) ∈ scan := by
  rw [List.mem_map] at hp
  obtain ⟨pf, hpf, heq⟩ := hp
  exact ⟨pf.2, by rw [← heq]; exact hpf⟩

/-- One steady-state iteration preserves the loop invariant. -/
theorem steadyStep_inv {c : Cfg} (hbs : 1 ≤ c.block_size) (hs : 1 ≤ c.stride)
    {b : Nat} (hb : b + 2 ≤ c.total / c.stride / c.block_size)
    {st st' : InkSt} (hinv : InvSt c b st) (h : steadyStep c st b = .ok st') :
    InvSt c (b + 1) st' := by
  obtain ⟨P1, P2, P3, P4, P5, P6⟩ := steadyStep_ok_parts h
  obtain ⟨hnd, hUnSent, hVals, hPos, hLen, hOut⟩ := hinv
  have hkeysnd := scanBlock_keys_nodup st.buffer c.block_size c.bw_cutoff st.uninked hnd
  have hmemUn : ∀ p, p ∈ st'.uninked ↔ p ∈ st.uninked ∧
      p ∉ (scanBlock st.buffer c.block_size c.bw_cutoff st.uninked).map Prod.fst := by
    intro p
    rw [P1]
    exact eraseFold_mem _ st.uninked hnd p
  -- arithmetic bridges (products of variables, spelled out for omega)
  have e1 : (b + 2) * c.block_size = b * c.block_size + 2 * c.block_size := by ring
  have e2 : (b + 3) * c.block_size = b * c.block_size + 3 * c.block_size := by ring
  have e3 : (b + 1) * c.block_size = b * c.block_size + 1 * c.block_size := by ring
  have hb2bs : (b + 2) * c.block_size ≤ c.total / c.stride := by
    calc (b + 2) * c.block_size ≤ c.total / c.stride / c.block_size * c.block_size :=
          Nat.mul_le_mul_right _ hb
      _ ≤ c.total / c.stride := Nat.div_mul_le_self _ _
  have hEeff : c.total / c.stride ≤ effCount c.total c.stride :=
    eff_le_effCount c.total c.stride hs
  have hsent : ∀ p ∈ (scanBlock st.buffer c.block_size c.bw_cutoff st.uninked).map
      Prod.fst, ∃ f, st'.inkF p = b * c.block_size + f ∧
        f + c.block_size ≤ st.buffer.length := by
    intro p hp
    obtain ⟨f, hf⟩ := keys_mem_exists hp
    refine ⟨f, ?_, ?_⟩
    · rw [P2]
      exact updFold_mem _ _ hkeysnd _ p f hf
    · have hfind := (scanBlock_mem st.buffer c.block_size c.bw_cutoff st.uninked p f).1 hf
      have hgs := ((find_ink_frame_spec st.buffer p.1 p.2 c.block_size c.bw_cutoff
        hbs).1 f).1 hfind.2
      exact hgs.1
  refine ⟨?_, ?_, ?_, ?_, ?_, ?_⟩
  · rw [P1]
    exact eraseFold_nodup _ st.uninked hnd
  · intro p hp
    rw [hmemUn p] at hp
    rw [P2, updFold_not_mem _ _ _ p hp.2]
    exact hUnSent p hp.1
  · intro p
    by_cases hk : p ∈ (scanBlock st.buffer c.block_size c.bw_cutoff st.uninked).map
      Prod.fst
    · obtain ⟨f, hval, hfb⟩ := hsent p hk
      right
      rw [hval]
      omega
    · rw [P2, updFold_not_mem _ _ _ p hk]
      exact hVals p
  · rw [P5, hPos]
    ring
  · rw [P3, List.length_append, List.length_drop, hLen, hPos]
    have hrb : (read_block c.raw c.total ((b + 2) * c.block_size * c.stride)
        c.block_size c.stride).length =
        min c.block_size (effCount c.total c.stride - (b + 2) * c.block_size) := by
      have hpos2 : (b + 2) * c.block_size * c.stride =
          ((b + 2) * c.block_size) * c.stride := by ring
      rw [hpos2]
      exact read_block_length c.raw c.total c.stride hs _ c.block_size
    rw [hrb]
    have e4 : (b + 1 + 2) * c.block_size = b * c.block_size + 3 * c.block_size := by
      ring
    have e5 : (b + 1) * c.block_size = b * c.block_size + c.block_size := by ring
    omega
  · intro gf hgf
    rw [P6] at hgf
    rcases List.mem_append.1 hgf with hold | hnew
    · obtain ⟨hg1, hg2⟩ := hOut gf hold
      refine ⟨by omega, ?_⟩
      intro p
      rw [hg2 p]
      by_cases hk : p ∈ (scanBlock st.buffer c.block_size c.bw_cutoff st.uninked).map
        Prod.fst
      · obtain ⟨f, hval, _⟩ := hsent p hk
        have hpun : p ∈ st.uninked := scanBlock_keys_sub _ _ _ _ p hk
        have hpe : st.inkF p = c.total / c.stride := hUnSent p hpun
        unfold renderS
        rw [hval, hpe]
        have hc1 : ¬ (c.total / c.stride ≤ gf.1) := by omega
        have hc2 : ¬ (b * c.block_size + f ≤ gf.1) := by omega
        rw [if_neg hc1, if_neg hc2]
      · rw [P2]
        unfold renderS
        rw [updFold_not_mem _ _ _ p hk]
    · rw [List.mem_filterMap] at hnew
      obtain ⟨f, hf, hopt⟩ := hnew
      rw [List.mem_range] at hf
      split at hopt
      · exact absurd hopt (by simp)
      · injection hopt with h3
        subst h3
        exact ⟨by omega, fun p => rfl⟩

/-- The invariant holds for the initial state. -/
theorem initSt_inv (c : Cfg) (hbs : 1 ≤ c.block_size) (hs : 1 ≤ c.stride)
    (heff : 2 * c.block_size < c.total / c.stride) : InvSt c 0 (initSt c) := by
  have hEeff := eff_le_effCount c.total c.stride hs
  refine ⟨?_, ?_, ?_, ?_, ?_, ?_⟩
  · apply (List.filter_sublist _).nodup
    have hprod : rowMajor c.H c.W = List.range c.H ×ˢ List.range c.W := rfl
    rw [hprod]
    exact List.Nodup.product (List.nodup_range _) (List.nodup_range _)
  · intro p _
    rfl
  · intro p
    left
    rfl
  · show 2 * (c.block_size * c.stride) = (0 + 2) * c.block_size * c.stride
    ring
  · show (read_block c.raw c.total 0 c.block_size c.stride ++
        read_block c.raw c.total (c.block_size * c.stride) c.block_size
          c.stride).length = _
    rw [List.length_append]
    have h0 := read_block_length c.raw c.total c.stride hs 0 c.block_size
    rw [show (0 : Nat) * c.stride = 0 from by ring] at h0
    have h1 : (read_block c.raw c.total (c.block_size * c.stride) c.block_size
        c.stride).length = min c.block_size (effCount c.total c.stride -
          c.block_size) := by
      exact read_block_length c.raw c.total c.stride hs c.block_size c.block_size
    rw [h0, h1]
    have eA : (0 + 2) * c.block_size = 2 * c.block_size := by ring
    have eB : 0 * c.block_size = 0 := by ring
    omega
  · intro gf hgf
    simp only [initSt] at hgf
    exact absurd hgf (List.not_mem_nil gf)

/-- The invariant holds at every reachable state of the steady loop. -/
theorem statesUpTo_inv (c : Cfg) (hbs : 1 ≤ c.block_size) (hs : 1 ≤ c.stride)
    (heff : 2 * c.block_size < c.total / c.stride) :
    ∀ b, b ≤ c.total / c.stride / c.block_size - 1 →
      ∀ st, statesUpTo c b = .ok st → InvSt c b st := by
  have hdiv2 : 2 ≤ c.total / c.stride / c.block_size := by
    rw [Nat.le_div_iff_mul_le (by omega : 0 < c.block_size)]
    omega
  intro b
  induction b with
  | zero =>
    intro _ st h
    rw [statesUpTo_zero] at h
    injection h with h2
    subst h2
    exact initSt_inv c hbs hs heff
  | succ m ih =>
    intro hble st h
    rw [statesUpTo_succ] at h
    obtain ⟨mid, hmid, hstep⟩ := exceptBind_ok h
    have hinv := ih (by omega) mid hmid
    exact steadyStep_inv hbs hs (by omega) hinv hstep

/-! ### What a step writes, and what later steps preserve -/

theorem steadyStep_assigned {c : Cfg} (hbs : 1 ≤ c.block_size) {st st' : InkSt}
    {b : Nat} (hnd : st.uninked.Nodup) (h : steadyStep c st b = .ok st') :
    ∀ p ∈ (scanBlock st.buffer c.block_size c.bw_cutoff st.uninked).map Prod.fst,
      ∃ f, st'.inkF p = b * c.block_size + f ∧ f + c.block_size ≤ st.buffer.length ∧
        f ∈ (scanBlock st.buffer c.block_size c.bw_cutoff st.uninked).map Prod.snd := by
  obtain ⟨_, P2, _, _, _, _⟩ := steadyStep_ok_parts h
  have hkeysnd := scanBlock_keys_nodup st.buffer c.block_size c.bw_cutoff st.uninked hnd
  intro p hp
  obtain ⟨f, hf⟩ := keys_mem_exists hp
  refine ⟨f, ?_, ?_, ?_⟩
  · rw [P2]
    exact updFold_mem _ _ hkeysnd _ p f hf
  · have hfind := (scanBlock_mem st.buffer c.block_size c.bw_cutoff st.uninked p f).1 hf
    have hgs := ((find_ink_frame_spec st.buffer p.1 p.2 c.block_size c.bw_cutoff
      hbs).1 f).1 hfind.2
    exact hgs.1
  · exact List.mem_map.2 ⟨(p, f), hf, rfl⟩

theorem steadyStep_writes {c : Cfg} {st st' : InkSt} {b : Nat}
    (hnd : st.uninked.Nodup) (h : steadyStep c st b = .ok st') :
    (∀ p, p ∈ st'.uninked ↔ p ∈ st.uninked ∧
      p ∉ (scanBlock st.buffer c.block_size c.bw_cutoff st.uninked).map Prod.fst) ∧
    (∀ p, st'.inkF p ≠ st.inkF p →
      p ∈ (scanBlock st.buffer c.block_size c.bw_cutoff st.uninked).map Prod.fst) := by
  obtain ⟨P1, P2, _, _, _, _⟩ := steadyStep_ok_parts h
  refine ⟨?_, ?_⟩
  · intro p
    rw [P1]
    exact eraseFold_mem _ st.uninked hnd p
  · intro p hne
    by_contra hk
    exact hne (by rw [P2]; exact updFold_not_mem _ _ _ p hk)

theorem steadyStep_out_grows {c : Cfg} {st st' : InkSt} {b : Nat}
    (h : steadyStep c st b = .ok st') : ∀ gf ∈ st.out, gf ∈ st'.out := by
  obtain ⟨_, _, _, _, _, P6⟩ := steadyStep_ok_parts h
  intro gf hgf
  rw [P6]
  exact List.mem_append_left _ hgf

/-- Along the steady loop, entries of the output list persist, the uninked
list shrinks, and a matrix entry that differs from the sentinel is final. -/
theorem statesUpTo_stable (c : Cfg) (hbs : 1 ≤ c.block_size) (hs : 1 ≤ c.stride)
    (heff : 2 * c.block_size < c.total / c.stride) :
    ∀ b d st st', b + d ≤ c.total / c.stride / c.block_size - 1 →
      statesUpTo c b = .ok st → statesUpTo c (b + d) = .ok st' →
      (∀ gf ∈ st.out, gf ∈ st'.out) ∧
      (∀ p ∈ st'.uninked, p ∈ st.uninked) ∧
      (∀ p, st.inkF p ≠ c.total / c.stride → st'.inkF p = st.inkF p) := by
  intro b d
  induction d with
  | zero =>
    intro st st' _ h1 h2
    rw [Nat.add_zero, h1] at h2
    injection h2 with h3
    subst h3
    exact ⟨fun gf hgf => hgf, fun p hp => hp, fun p _ => rfl⟩
  | succ m ih =>
    intro st st' hle h1 h2
    rw [show b + (m + 1) = (b + m) + 1 from rfl, statesUpTo_succ] at h2
    obtain ⟨mid, hmid, hstep⟩ := exceptBind_ok h2
    obtain ⟨S1, S2, S3⟩ := ih st mid (by omega) h1 hmid
    have hinvmid := statesUpTo_inv c hbs hs heff (b + m) (by omega) mid hmid
    obtain ⟨W1, W2⟩ := steadyStep_writes hinvmid.1 hstep
    refine ⟨?_, ?_, ?_⟩
    · intro gf hgf
      exact steadyStep_out_grows hstep gf (S1 gf hgf)
    · intro p hp
      exact S2 p ((W1 p).1 hp).1
    · intro p hne
      have hmid2 : mid.inkF p = st.inkF p := S3 p hne
      by_cases hchanged : st'.inkF p = mid.inkF p
      · rw [hchanged, hmid2]
      · exfalso
        have hk := W2 p hchanged
        have hpun := scanBlock_keys_sub _ _ _ _ p hk
        have := hinvmid.2.1 p hpun
        rw [hmid2] at this
        exact hne this

/-! ### The final block, unpacked -/

theorem finalScanStep_error_eq {fb : List Frame} {cutoff bs bn : Nat}
    {acc : (Pix → Nat) × List Pix × List Nat} {p : Pix} {e : Fatal}
    (h : finalScanStep fb cutoff bs bn acc p = .error e) :
    e = Fatal.uninkedNotBlack := by
  simp only [finalScanStep] at h
  split at h
  · exact absurd h (by simp)
  · injection h with h2
    exact h2.symm

theorem final_fold_ok (fb : List Frame) (cutoff bs bn : Nat) :
    ∀ (u : List Pix) (acc trip : (Pix → Nat) × List Pix × List Nat),
      u.foldlM (finalScanStep fb cutoff bs bn) acc = .ok trip →
      trip.2.1 = acc.2.1 ++ u ∧
      trip.2.2 = acc.2.2 ++ u.map (finalF fb cutoff) ∧
      (∀ p, p ∉ u → trip.1 p = acc.1 p) ∧
      (∀ p ∈ u, trip.1 p = bn * bs + finalF fb cutoff p) ∧
      (∀ p ∈ u, pixInk fb p.1 p.2 cutoff (fb.length - 1) = true) := by
  intro u
  induction u with
  | nil =>
    intro acc trip h
    simp only [List.foldlM_nil, pure, Except.pure, Except.ok.injEq] at h
    subst h
    exact ⟨by simp, by simp, fun p _ => rfl, by simp, by simp⟩
  | cons p t ih =>
    intro acc trip h
    rw [List.foldlM_cons] at h
    cases hstep : finalScanStep fb cutoff bs bn acc p with
    | error e =>
      rw [hstep] at h
      simp [Bind.bind, Except.bind] at h
    | ok acc2 =>
      rw [hstep] at h
      simp only [Bind.bind, Except.bind] at h
      obtain ⟨A1, A2, A3, A4, A5⟩ := ih acc2 trip h
      simp only [finalScanStep] at hstep
      split at hstep
      · rename_i hguard
        injection hstep with h2
        subst h2
        refine ⟨?_, ?_, ?_, ?_, ?_⟩
        · rw [A1]
          simp [List.append_assoc]
        · rw [A2]
          simp [List.append_assoc, finalF]
        · intro q hq
          simp only [List.mem_cons] at hq
          push_neg at hq
          rw [A3 q hq.2]
          simp [updF, hq.1]
        · intro q hq
          rcases List.mem_cons.1 hq with rfl | hqt
          · by_cases hqt2 : q ∈ t
            · exact A4 q hqt2
            · rw [A3 q hqt2]
              simp [updF, finalF]
          · exact A4 q hqt
        · intro q hq
          rcases List.mem_cons.1 hq with rfl | hqt
          · exact hguard
          · exact A5 q hqt
      · exact absurd hstep (by simp)

theorem finalBlock_ok_parts {c : Cfg} {st : InkSt} {res : RunResult}
    (h : finalBlock c st = .ok res) :
    ∃ trip : (Pix → Nat) × List Pix × List Nat,
      st.uninked.foldlM (finalScanStep st.buffer c.bw_cutoff c.block_size
        (c.total / c.stride / c.block_size - 1))
        (st.inkF, ([] : List Pix), ([] : List Nat)) = .ok trip ∧
      res.ink_frame = trip.1 ∧
      res.uninked = trip.2.1.foldl (fun l p => l.erase p) st.uninked ∧
      res.finalBuf = (List.range st.buffer.length).map (fun f =>
        renderF trip.1 ((c.total / c.stride / c.block_size - 1) * c.block_size + f)) ∧
      res.outro = List.replicate (pyInt ((c.outro_length : ℚ) * c.fps)).toNat
        (res.finalBuf.getLastD (fun _ => 0)) ∧
      res.out = st.out ++ (List.range st.buffer.length).filterMap (fun f =>
        if c.only_ink_frames && !(trip.2.2.contains f) then none
        else some ((c.total / c.stride / c.block_size - 1) * c.block_size + f,
          renderF trip.1 ((c.total / c.stride / c.block_size - 1) * c.block_size +
            f))) := by
  simp only [finalBlock] at h
  cases hfold : st.uninked.foldlM (finalScanStep st.buffer c.bw_cutoff c.block_size
      (c.total / c.stride / c.block_size - 1))
      (st.inkF, ([] : List Pix), ([] : List Nat)) with
  | error e =>
    rw [hfold] at h
    simp [Except.map] at h
  | ok trip =>
    rw [hfold] at h
    simp only [Except.map, Except.ok.injEq] at h
    subst h
    exact ⟨trip, rfl, rfl, rfl, rfl, rfl, rfl⟩

/-! ### Error classification and the driver unpacked -/

theorem exceptBind_error {ε α β : Type} {e : Except ε α} {f : α → Except ε β}
    {err : ε} (h : (e >>= f) = .error err) :
    e = .error err ∨ ∃ a, e = .ok a ∧ f a = .error err := by
  cases e with
  | error e2 =>
    left
    have : e2 = err := by simpa [Bind.bind, Except.bind] using h
    rw [this]
  | ok a =>
    right
    exact ⟨a, rfl, by simpa [Bind.bind, Except.bind] using h⟩

theorem steadyStep_error_eq {c : Cfg} {st : InkSt} {b : Nat} {e : Fatal}
    (h : steadyStep c st b = .error e) : e = Fatal.readCrash b := by
  simp only [steadyStep] at h
  split at h
  · injection h with h2
    exact h2.symm
  · exact absurd h (by simp)

theorem finalBlock_error_eq {c : Cfg} {st : InkSt} {e : Fatal}
    (h : finalBlock c st = .error e) : e = Fatal.uninkedNotBlack := by
  simp only [finalBlock] at h
  cases hfold : st.uninked.foldlM (finalScanStep st.buffer c.bw_cutoff c.block_size
      (c.total / c.stride / c.block_size - 1))
      (st.inkF, ([] : List Pix), ([] : List Nat)) with
  | error e2 =>
    rw [hfold] at h
    simp only [Except.map, Except.error.injEq] at h
    rw [← h]
    exact foldlM_error_cases _ (fun e3 => e3 = Fatal.uninkedNotBlack)
      (fun acc p e3 hstep => finalScanStep_error_eq hstep) st.uninked _ e2 hfold
  | ok trip =>
    rw [hfold] at h
    simp [Except.map] at h

theorem statesUpTo_error_eq {c : Cfg} {b : Nat} {e : Fatal}
    (h : statesUpTo c b = .error e) : ∃ b2, e = Fatal.readCrash b2 := by
  exact foldlM_error_cases _ (fun e3 => ∃ b2, e3 = Fatal.readCrash b2)
    (fun st b2 e3 hstep => ⟨b2, steadyStep_error_eq hstep⟩) _ _ e h

theorem inker_ok_parts {c : Cfg} {res : RunResult} (h : inker c = .ok res) :
    2 * c.block_size < c.total / c.stride ∧
    ∃ st, statesUpTo c (c.total / c.stride / c.block_size - 1) = .ok st ∧
      finalBlock c st = .ok res := by
  simp only [inker] at h
  split at h
  · exact absurd h (by simp)
  · rename_i hcond
    obtain ⟨st, h1, h2⟩ := exceptBind_ok h
    exact ⟨by omega, st, h1, h2⟩

/-- Pixels of the initial uninked list either stay unresolved or have a
recorded (non-sentinel) transition, at every reachable steady-loop state. -/
theorem uninked0_tracked (c : Cfg) (hbs : 1 ≤ c.block_size) (hs : 1 ≤ c.stride)
    (heff : 2 * c.block_size < c.total / c.stride) :
    ∀ b, b ≤ c.total / c.stride / c.block_size - 1 →
      ∀ st, statesUpTo c b = .ok st →
      ∀ p, p ∈ (initSt c).uninked →
        p ∈ st.uninked ∨ st.inkF p ≠ c.total / c.stride := by
  have hdiv2 : 2 ≤ c.total / c.stride / c.block_size := by
    rw [Nat.le_div_iff_mul_le (by omega : 0 < c.block_size)]
    omega
  intro b
  induction b with
  | zero =>
    intro _ st h p hp
    rw [statesUpTo_zero] at h
    injection h with h2
    subst h2
    exact Or.inl hp
  | succ m ih =>
    intro hble st h p hp
    rw [statesUpTo_succ] at h
    obtain ⟨mid, hmid, hstep⟩ := exceptBind_ok h
    have hinv := statesUpTo_inv c hbs hs heff m (by omega) mid hmid
    obtain ⟨W1, W2⟩ := steadyStep_writes hinv.1 hstep
    rcases ih (by omega) mid hmid p hp with hun | hval
    · by_cases hk : p ∈ (scanBlock mid.buffer c.block_size c.bw_cutoff
        mid.uninked).map Prod.fst
      · right
        obtain ⟨f, hvf, hfb, _⟩ := steadyStep_assigned hbs hinv.1 hstep p hk
        have hlen := hinv.2.2.2.2.1
        have hb2bs : (m + 2) * c.block_size ≤ c.total / c.stride := by
          calc (m + 2) * c.block_size ≤
              c.total / c.stride / c.block_size * c.block_size :=
                Nat.mul_le_mul_right _ (by omega)
            _ ≤ c.total / c.stride := Nat.div_mul_le_self _ _
        rw [hvf]
        have e1 : (m + 2) * c.block_size = m * c.block_size + 2 * c.block_size := by
          ring
        omega
      · left
        exact (W1 p).2 ⟨hun, hk⟩
    · right
      intro hvaleq
      by_cases hch : st.inkF p = mid.inkF p
      · rw [hch] at hvaleq
        exact hval hvaleq
      · have hk := W2 p hch
        have hpun := scanBlock_keys_sub _ _ _ _ p hk
        exact hval (hinv.2.1 p hpun)

/-! ### Claim C1 -/

/-- C1: for every pixel `(i, j)` and every frame buffer of length `L` with
`L ≥ block_size` (and meaningful positive `block_size`),
`find_ink_frame(frame_buffer, i, j, block_size, bw_cutoff)` returns the
buffer index `f` of the first frame of the earliest run of at least
`block_size` consecutive ink frames lying entirely within the buffer — the
frame at `f - 1`, when `f > 0`, is not ink and no such run starts earlier —
and returns `none` exactly when the buffer contains no such run. -/
theorem claim_C1 (frame_buffer : List Frame) (i j block_size bw_cutoff : Nat)
    (hbs : 1 ≤ block_size) (_hL : block_size ≤ frame_buffer.length) :
    (∀ f, find_ink_frame frame_buffer i j block_size bw_cutoff = some f ↔
        goodStart (pixInk frame_buffer i j bw_cutoff) frame_buffer.length
          block_size f) ∧
    (find_ink_frame frame_buffer i j block_size bw_cutoff = none ↔
        ∀ g, g + block_size ≤ frame_buffer.length →
          ¬ inkWin (pixInk frame_buffer i j bw_cutoff) block_size g) :=
  find_ink_frame_spec frame_buffer i j block_size bw_cutoff hbs

theorem claim_C1_witness :
    (1 ≤ 2 ∧ 2 ≤ ([whiteF, blackF, blackF, blackF, whiteF] : List Frame).length) ∧
    ((∀ f, find_ink_frame [whiteF, blackF, blackF, blackF, whiteF] 0 0 2 100 =
          some f ↔
        goodStart (pixInk [whiteF, blackF, blackF, blackF, whiteF] 0 0 100)
          ([whiteF, blackF, blackF, blackF, whiteF] : List Frame).length 2 f) ∧
      (find_ink_frame [whiteF, blackF, blackF, blackF, whiteF] 0 0 2 100 = none ↔
        ∀ g, g + 2 ≤ ([whiteF, blackF, blackF, blackF, whiteF] : List Frame).length →
          ¬ inkWin (pixInk [whiteF, blackF, blackF, blackF, whiteF] 0 0 100) 2 g)) :=
  ⟨⟨by decide, by decide⟩,
    claim_C1 [whiteF, blackF, blackF, blackF, whiteF] 0 0 2 100 (by decide) (by decide)⟩

/-! ### Claim C10 -/

theorem find_ink_go_reads_bounds (ink : Nat → Bool) (L bs : Nat) :
    ∀ fuel x, ∀ r ∈ find_ink_go_reads ink L bs fuel x,
      -1 ≤ r ∧ r < (L : Int) := by
  intro fuel
  induction fuel with
  | zero =>
    intro x r hr
    simp [find_ink_go_reads] at hr
  | succ n ih =>
    intro x r hr
    simp only [find_ink_go_reads] at hr
    by_cases hx : x < L
    · rw [if_pos hx] at hr
      rcases List.mem_append.1 hr with h1 | h2
      · simp only [innerReads, List.mem_map, List.mem_range] at h1
        obtain ⟨k, hk, rfl⟩ := h1
        have hle := backRun_le ink x
        omega
      · by_cases hy : bs ≤ backRun ink x
        · rw [if_pos hy] at h2
          simp at h2
        · rw [if_neg hy] at h2
          exact ih _ r h2
    · rw [if_neg hx] at hr
      simp at hr

/-- C10 counterexample: on a two-frame buffer whose pixel is ink in both
frames, with `block_size = 2`, the backward walk performs a read at buffer
index `-1` (which numpy wraps to the last frame; the value cannot affect the
result since the `x-y >= 0` conjunct ends the loop).  So it is false that
every read has `0 ≤ x - y < len(frame_buffer)`. -/
theorem claim_C10_cex :
    ¬ (∀ r ∈ find_ink_reads [blackF, blackF] 0 0 2 100,
        0 ≤ r ∧ r < ([blackF, blackF] : List Frame).length) := by
  decide

/-- C10 amended: every read of `frame_buffer[x-y, i, j]` in `find_ink_frame`'s
backward walk has `-1 ≤ x - y < len(frame_buffer)`: the only possible
out-of-range read is at index `-1`, hit exactly when the walk runs off the
front of the buffer. -/
theorem claim_C10_amended (frame_buffer : List Frame)
    (i j block_size bw_cutoff : Nat) (_hbs : 1 ≤ block_size) :
    ∀ r ∈ find_ink_reads frame_buffer i j block_size bw_cutoff,
      -1 ≤ r ∧ r < (frame_buffer.length : Int) :=
  find_ink_go_reads_bounds _ _ _ _ _

theorem claim_C10_amended_witness :
    (1 ≤ 2) ∧
    (∀ r ∈ find_ink_reads [blackF, blackF] 0 0 2 100,
      -1 ≤ r ∧ r < (([blackF, blackF] : List Frame).length : Int)) :=
  ⟨by decide, claim_C10_amended [blackF, blackF] 0 0 2 100 (by decide)⟩

/-! ### Claim C7 -/

theorem get_data_retry_isSome (ok : Int → Bool) (total stride : Nat) :
    ∀ (fuel n : Nat), (get_data_retry ok total stride fuel n).isSome = true ↔
      ∃ k < fuel,
        ok ((total : Int) - ((n : Int) + (k : Int) * (stride : Int))) = true := by
  intro fuel
  induction fuel with
  | zero =>
    intro n
    simp [get_data_retry]
  | succ m ih =>
    intro n
    simp only [get_data_retry]
    by_cases h : ok ((total : Int) - (n : Int)) = true
    · rw [if_pos h]
      simp only [Option.isSome_some, true_iff]
      refine ⟨0, by omega, ?_⟩
      simpa using h
    · rw [if_neg h]
      rw [ih (n + stride)]
      constructor
      · rintro ⟨k, hk, hok⟩
        refine ⟨k + 1, by omega, ?_⟩
        have heq : (total : Int) - ((n : Int) + ((k : Nat) + 1 : Nat) *
            (stride : Int)) = (total : Int) - (((n + stride : Nat) : Int) +
              (k : Int) * (stride : Int)) := by
          push_cast
          ring
        rw [show (((k : Nat) + 1 : Nat) : Int) = ((k : Nat) : Int) + 1 by push_cast; ring] at heq
        exact heq ▸ hok
      · rintro ⟨k, hk, hok⟩
        match k, hk with
        | 0, _ =>
          exfalso
          apply h
          simpa using hok
        | k2 + 1, hk2 =>
          refine ⟨k2, by omega, ?_⟩
          have heq : (total : Int) - (((n + stride : Nat) : Int) +
              (k2 : Int) * (stride : Int)) =
              (total : Int) - ((n : Int) + ((k2 : Int) + 1) * (stride : Int)) := by
            push_cast
            ring
          rw [heq]
          have heq2 : ((k2 + 1 : Nat) : Int) = (k2 : Int) + 1 := by push_cast; ring
          rw [heq2] at hok
          exact hok

/-- C7 counterexample: with a decoder that fails at every index (total 100,
stride 10), the retry loop never terminates — after 50 iterations the
attempted index is far below the start of the stream and the loop is still
running, with no fatal stop.  The claim that the retry "performs finitely
many iterations, terminating fatally once the retries reach the start of the
stream" is false of the code. -/
theorem claim_C7_cex :
    (¬ ∃ fuel, (get_data_retry (fun _ => false) 100 10 fuel 1).isSome = true) ∧
    get_data_retry (fun _ => false) 100 10 50 1 = none := by
  constructor
  · rintro ⟨fuel, h⟩
    rw [get_data_retry_isSome] at h
    obtain ⟨k, _, hk⟩ := h
    simp at hk
  · decide

/-- C7 amended: the reference-frame fetch retries at the progressively
earlier indices `total - 1, total - 1 - stride, total - 1 - 2·stride, …`,
and the loop terminates (some fuel makes the result `some`) precisely when
the decoder succeeds at one of those indices; when the decoder fails at
every attempted index the loop runs forever — it has no fatal stop at the
start of the stream. -/
theorem claim_C7_amended (ok : Int → Bool) (total stride : Nat) :
    (∃ fuel, (get_data_retry ok total stride fuel 1).isSome = true) ↔
      ∃ k : Nat, ok ((total : Int) - ((1 : Int) + (k : Int) * (stride : Int))) =
        true := by
  constructor
  · rintro ⟨fuel, h⟩
    rw [get_data_retry_isSome] at h
    obtain ⟨k, _, hk⟩ := h
    refine ⟨k, ?_⟩
    simpa using hk
  · rintro ⟨k, hk⟩
    refine ⟨k + 1, ?_⟩
    rw [get_data_retry_isSome]
    refine ⟨k, by omega, ?_⟩
    simpa using hk

/-! ### Claim C8 -/

/-- C8 counterexample: with `outro_length = 1` second and `fps = 7/4`, the
completed run on `cfgC` appends `int(1 * 1.75) = 1` outro frame, not
`round(1 * 1.75) = 2` as the claim states for every `outro_length` and
`fps`. -/
theorem claim_C8_cex :
    (inker cfgC).toOption.map (fun r => r.outro.length) = some 1 ∧
    (round ((cfgC.outro_length : ℚ) * cfgC.fps)).toNat = 2 := by
  constructor
  · decide
  · decide

/-- C8 amended: after the final block is written, the outro appends exactly
`int(outro_length × fps)` copies — truncation toward zero, not rounding to
nearest — of the last rendered frame. -/
theorem claim_C8_amended (c : Cfg) (res : RunResult) (h : inker c = .ok res) :
    res.outro.length = (pyInt ((c.outro_length : ℚ) * c.fps)).toNat ∧
    ∀ fr ∈ res.outro, fr = res.finalBuf.getLastD (fun _ => 0) := by
  obtain ⟨heff, st, hst, hfin⟩ := inker_ok_parts h
  obtain ⟨trip, _, _, _, _, houtro, _⟩ := finalBlock_ok_parts hfin
  rw [houtro]
  exact ⟨List.length_replicate _ _, fun fr hfr => List.eq_of_mem_replicate hfr⟩

theorem claim_C8_amended_witness :
    inker cfgD = .ok resD ∧
    resD.outro.length = (pyInt ((cfgD.outro_length : ℚ) * cfgD.fps)).toNat ∧
    ∀ fr ∈ resD.outro, fr = resD.finalBuf.getLastD (fun _ => 0) :=
  ⟨rfl, claim_C8_amended cfgD resD rfl⟩

/-! ### Claim C9 -/

/-- C9: the run aborts with the "not enough frames" fatal error if and only
if the effective frame count `total_frames // stride` is at most
`2 * block_size`; in particular this covers a video whose effective length
is exactly `2 * block_size`, and the error is raised by the assertion before
any frame is read or processed (in the model, before the buffer is ever
built). -/
theorem claim_C9 (c : Cfg) :
    inker c = .error Fatal.notEnoughFrames ↔
      c.total / c.stride ≤ 2 * c.block_size := by
  constructor
  · intro h
    by_contra hgt
    push_neg at hgt
    simp only [inker] at h
    rw [if_neg (by omega)] at h
    rcases exceptBind_error h with h1 | ⟨st, _, h2⟩
    · obtain ⟨b2, hb2⟩ := statesUpTo_error_eq h1
      exact Fatal.noConfusion hb2
    · exact Fatal.noConfusion (finalBlock_error_eq h2)
  · intro hle
    simp only [inker]
    rw [if_pos hle]

/-! ### Claim C6 -/

/-- C6: bounded memory.  The initial window holds exactly `2 * block_size`
frames; every reachable steady-loop state's buffer holds at most
`2 * block_size` frames; each steady-state iteration drops exactly
`block_size` front frames (the buffer always holds at least that many) and
then appends at most `block_size` freshly read frames; and the final block's
buffer is also within the bound — all regardless of the total stream
length. -/
theorem claim_C6 (c : Cfg) (hbs : 1 ≤ c.block_size) (hs : 1 ≤ c.stride)
    (heff : 2 * c.block_size < c.total / c.stride) :
    (initSt c).buffer.length = 2 * c.block_size ∧
    (∀ b st, b ≤ c.total / c.stride / c.block_size - 1 →
      statesUpTo c b = .ok st → st.buffer.length ≤ 2 * c.block_size) ∧
    (∀ b st st', b + 1 ≤ c.total / c.stride / c.block_size - 1 →
      statesUpTo c b = .ok st → steadyStep c st b = .ok st' →
      c.block_size ≤ st.buffer.length ∧
      ∃ nb, st'.buffer = st.buffer.drop c.block_size ++ nb ∧
        nb.length ≤ c.block_size) ∧
    (∀ res, inker c = .ok res → res.finalBuf.length ≤ 2 * c.block_size) := by
  have hEeff := eff_le_effCount c.total c.stride hs
  have hdiv2 : 2 ≤ c.total / c.stride / c.block_size := by
    rw [Nat.le_div_iff_mul_le (by omega : 0 < c.block_size)]
    omega
  have hlen_le : ∀ b st, b ≤ c.total / c.stride / c.block_size - 1 →
      statesUpTo c b = .ok st → st.buffer.length ≤ 2 * c.block_size := by
    intro b st hb hok
    have hlen := (statesUpTo_inv c hbs hs heff b hb st hok).2.2.2.2.1
    have e1 : (b + 2) * c.block_size = b * c.block_size + 2 * c.block_size := by
      ring
    omega
  refine ⟨?_, hlen_le, ?_, ?_⟩
  · have hlen := (initSt_inv c hbs hs heff).2.2.2.2.1
    have e1 : (0 + 2) * c.block_size = 0 * c.block_size + 2 * c.block_size := by
      ring
    have e2 : 0 * c.block_size = 0 := by ring
    omega
  · intro b st st' hb hok hstep
    have hinv := statesUpTo_inv c hbs hs heff b (by omega) st hok
    have hlen := hinv.2.2.2.2.1
    have hpos := hinv.2.2.2.1
    obtain ⟨_, _, P3, _, _, _⟩ := steadyStep_ok_parts hstep
    have hb2bs : (b + 2) * c.block_size ≤ c.total / c.stride := by
      calc (b + 2) * c.block_size ≤
          c.total / c.stride / c.block_size * c.block_size :=
            Nat.mul_le_mul_right _ (by omega)
        _ ≤ c.total / c.stride := Nat.div_mul_le_self _ _
    have e1 : (b + 2) * c.block_size = b * c.block_size + 2 * c.block_size := by
      ring
    constructor
    · omega
    · refine ⟨read_block c.raw c.total st.pos c.block_size c.stride, P3, ?_⟩
      rw [hpos]
      have hrb : (read_block c.raw c.total ((b + 2) * c.block_size * c.stride)
          c.block_size c.stride).length =
          min c.block_size (effCount c.total c.stride - (b + 2) * c.block_size) := by
        have hpos2 : (b + 2) * c.block_size * c.stride =
            ((b + 2) * c.block_size) * c.stride := by ring
        rw [hpos2]
        exact read_block_length c.raw c.total c.stride hs _ c.block_size
      rw [hrb]
      omega
  · intro res hok
    obtain ⟨_, st, hst, hfin⟩ := inker_ok_parts hok
    obtain ⟨trip, _, _, _, hbuf, _, _⟩ := finalBlock_ok_parts hfin
    rw [hbuf, List.length_map, List.length_range]
    exact hlen_le _ st (le_refl _) hst

theorem claim_C6_witness :
    (1 ≤ cfgD.block_size ∧ 1 ≤ cfgD.stride ∧
      2 * cfgD.block_size < cfgD.total / cfgD.stride) ∧
    ((initSt cfgD).buffer.length = 2 * cfgD.block_size ∧
    (∀ b st, b ≤ cfgD.total / cfgD.stride / cfgD.block_size - 1 →
      statesUpTo cfgD b = .ok st → st.buffer.length ≤ 2 * cfgD.block_size) ∧
    (∀ b st st', b + 1 ≤ cfgD.total / cfgD.stride / cfgD.block_size - 1 →
      statesUpTo cfgD b = .ok st → steadyStep cfgD st b = .ok st' →
      cfgD.block_size ≤ st.buffer.length ∧
      ∃ nb, st'.buffer = st.buffer.drop cfgD.block_size ++ nb ∧
        nb.length ≤ cfgD.block_size) ∧
    (∀ res, inker cfgD = .ok res → res.finalBuf.length ≤ 2 * cfgD.block_size)) :=
  ⟨⟨by decide, by decide, by decide⟩,
    claim_C6 cfgD (by decide) (by decide) (by decide)⟩

/-! ### Claim C4 -/

/-- C4 counterexample: on `cfgB` (stride 2 over 7 raw frames, block_size 1)
the run completes without fatal error, the single pixel is marked ink in the
reference mask, yet it ends the run with `transition = 3`, which equals the
sentinel `eff_frames = 7 // 2 = 3` rather than being strictly below it: the
reader yields one extra effective frame beyond `eff_frames` when the stride
does not divide the frame count, and the pixel first inks on that extra
frame. -/
theorem claim_C4_cex :
    (inker cfgB).toOption.map (fun r => r.ink_frame (0, 0)) = some 3 ∧
    cfgB.total / cfgB.stride = 3 ∧
    is_black (cfgB.refFrame (0, 0)) cfgB.bw_cutoff = true := by
  exact ⟨by decide, by decide, by decide⟩

/-- C4 amended: in every completed run, every pixel marked ink in the
reference mask ends with `transition[i][j] < E`, where
`E = ⌈total_frames / stride⌉` is the number of effective frames the reader
actually yields; `transition < eff_frames` (the sentinel, `⌊total/stride⌋`)
is guaranteed whenever `stride` divides `total_frames`, and can fail only on
the extra effective frame that exists otherwise. -/
theorem claim_C4_amended (c : Cfg) (hbs : 1 ≤ c.block_size) (hs : 1 ≤ c.stride)
    (res : RunResult) (h : inker c = .ok res) :
    ∀ p, is_black (c.refFrame p) c.bw_cutoff = true → p ∈ rowMajor c.H c.W →
      res.ink_frame p < effCount c.total c.stride ∧
      (c.total % c.stride = 0 → res.ink_frame p < c.total / c.stride) := by
  obtain ⟨heff, st, hst, hfin⟩ := inker_ok_parts h
  have hEeff := eff_le_effCount c.total c.stride hs
  have hdvd := effCount_dvd c.total c.stride hs
  have hdiv2 : 2 ≤ c.total / c.stride / c.block_size := by
    rw [Nat.le_div_iff_mul_le (by omega : 0 < c.block_size)]
    omega
  have hinv := statesUpTo_inv c hbs hs heff _ (le_refl _) st hst
  obtain ⟨trip, hfold, hink, _, _, _, _⟩ := finalBlock_ok_parts hfin
  obtain ⟨A1, A2, A3, A4, A5⟩ := final_fold_ok st.buffer c.bw_cutoff c.block_size
    (c.total / c.stride / c.block_size - 1) st.uninked _ trip hfold
  intro p hblack hrm
  have hp0 : p ∈ (initSt c).uninked := by
    simp only [initSt]
    exact List.mem_filter.2 ⟨hrm, hblack⟩
  have htracked := uninked0_tracked c hbs hs heff _ (le_refl _) st hst p hp0
  have hval : res.ink_frame p < effCount c.total c.stride := by
    rcases htracked with hun | hne
    · rw [hink]
      rw [A4 p hun]
      have hy1 : 1 ≤ backRun (pixInk st.buffer p.1 p.2 c.bw_cutoff)
          (st.buffer.length - 1) := backRun_pos _ _ (A5 p hun)
      have hlen := hinv.2.2.2.2.1
      have hnp1 : c.total / c.stride / c.block_size - 1 + 1 =
          c.total / c.stride / c.block_size := by omega
      have hle1 : (c.total / c.stride / c.block_size - 1 + 1) * c.block_size ≤
          c.total / c.stride := by
        rw [hnp1]
        exact Nat.div_mul_le_self _ _
      have e1 : (c.total / c.stride / c.block_size - 1 + 2) * c.block_size =
          (c.total / c.stride / c.block_size - 1) * c.block_size +
            2 * c.block_size := by ring
      have e2 : (c.total / c.stride / c.block_size - 1 + 1) * c.block_size =
          (c.total / c.stride / c.block_size - 1) * c.block_size +
            c.block_size := by ring
      unfold finalF
      omega
    · have hnotun : p ∉ st.uninked := by
        intro hun
        exact hne (hinv.2.1 p hun)
      rw [hink, A3 p hnotun]
      show st.inkF p < effCount c.total c.stride
      rcases hinv.2.2.1 p with he | hbound
      · exact absurd he hne
      · omega
  exact ⟨hval, fun hmod => by rw [← hdvd hmod]; exact hval⟩

theorem claim_C4_amended_witness :
    (1 ≤ cfgD.block_size ∧ 1 ≤ cfgD.stride ∧ inker cfgD = .ok resD) ∧
    (∀ p, is_black (cfgD.refFrame p) cfgD.bw_cutoff = true →
      p ∈ rowMajor cfgD.H cfgD.W →
      resD.ink_frame p < effCount cfgD.total cfgD.stride ∧
      (cfgD.total % cfgD.stride = 0 →
        resD.ink_frame p < cfgD.total / cfgD.stride)) :=
  ⟨⟨by decide, by decide, rfl⟩, claim_C4_amended cfgD (by decide) (by decide) resD rfl⟩

/-! ### Claim C5 -/

/-- C5 counterexample: on `cfgB` the run completes with the pixel removed
from the unresolved set (`uninked` does not contain it) even though its
matrix entry equals the sentinel `eff_frames = 3` — the final-block scan can
record the sentinel value itself, so "a pixel is in the unresolved set iff
its transition entry is still the sentinel" fails. -/
theorem claim_C5_cex :
    (inker cfgB).toOption.map
      (fun r => (r.ink_frame (0, 0), r.uninked.contains (0, 0))) =
      some (3, false) ∧
    cfgB.total / cfgB.stride = 3 := by
  exact ⟨by decide, by decide⟩

/-- C5 amended: transition entries are written only for pixels in the
unresolved set, which are removed at the same step, so the set shrinks and
an entry, once it differs from the sentinel, is never written again; every
unresolved pixel's entry is still the sentinel.  (The converse — that a
pixel whose entry equals the sentinel is still unresolved — can fail: the
final-block scan may write the sentinel value itself, when the stride does
not divide the frame count and the pixel first inks on the extra final
frame.) -/
theorem claim_C5_amended (c : Cfg) (hbs : 1 ≤ c.block_size) (hs : 1 ≤ c.stride)
    (heff : 2 * c.block_size < c.total / c.stride) :
    (∀ b st st', b + 1 ≤ c.total / c.stride / c.block_size - 1 →
      statesUpTo c b = .ok st → steadyStep c st b = .ok st' →
      (∀ p, st'.inkF p ≠ st.inkF p →
        p ∈ st.uninked ∧ p ∉ st'.uninked ∧ st.inkF p = c.total / c.stride) ∧
      (∀ p ∈ st'.uninked, p ∈ st.uninked)) ∧
    (∀ b st, b ≤ c.total / c.stride / c.block_size - 1 →
      statesUpTo c b = .ok st → ∀ p ∈ st.uninked,
        st.inkF p = c.total / c.stride) ∧
    (∀ b d st st', b + d ≤ c.total / c.stride / c.block_size - 1 →
      statesUpTo c b = .ok st → statesUpTo c (b + d) = .ok st' →
      ∀ p, st.inkF p ≠ c.total / c.stride → st'.inkF p = st.inkF p) ∧
    (∀ st res, statesUpTo c (c.total / c.stride / c.block_size - 1) = .ok st →
      finalBlock c st = .ok res →
      (∀ p, res.ink_frame p ≠ st.inkF p → p ∈ st.uninked) ∧
      res.uninked = [] ∧
      (∀ p, st.inkF p ≠ c.total / c.stride → res.ink_frame p = st.inkF p)) := by
  refine ⟨?_, ?_, ?_, ?_⟩
  · intro b st st' hb hok hstep
    have hinv := statesUpTo_inv c hbs hs heff b (by omega) st hok
    obtain ⟨W1, W2⟩ := steadyStep_writes hinv.1 hstep
    refine ⟨?_, fun p hp => ((W1 p).1 hp).1⟩
    intro p hne
    have hk := W2 p hne
    have hpun := scanBlock_keys_sub _ _ _ _ p hk
    refine ⟨hpun, ?_, hinv.2.1 p hpun⟩
    intro hp'
    exact ((W1 p).1 hp').2 hk
  · intro b st hb hok
    exact (statesUpTo_inv c hbs hs heff b hb st hok).2.1
  · intro b d st st' hbd h1 h2
    exact (statesUpTo_stable c hbs hs heff b d st st' hbd h1 h2).2.2
  · intro st res hst hfin
    have hinv := statesUpTo_inv c hbs hs heff _ (le_refl _) st hst
    obtain ⟨trip, hfold, hink, hunink, _, _, _⟩ := finalBlock_ok_parts hfin
    obtain ⟨A1, A2, A3, A4, A5⟩ := final_fold_ok st.buffer c.bw_cutoff
      c.block_size (c.total / c.stride / c.block_size - 1) st.uninked _ trip hfold
    refine ⟨?_, ?_, ?_⟩
    · intro p hne
      by_contra hnotin
      rw [hink] at hne
      exact hne (A3 p hnotin)
    · rw [hunink, A1]
      simp only [List.nil_append]
      rw [List.eq_nil_iff_forall_not_mem]
      intro p hp
      rw [eraseFold_mem st.uninked st.uninked hinv.1 p] at hp
      exact hp.2 hp.1
    · intro p hne
      have hnotin : p ∉ st.uninked := fun hin => hne (hinv.2.1 p hin)
      rw [hink]
      exact A3 p hnotin

theorem claim_C5_amended_witness :
    (1 ≤ cfgD.block_size ∧ 1 ≤ cfgD.stride ∧
      2 * cfgD.block_size < cfgD.total / cfgD.stride) ∧
    ((∀ b st st', b + 1 ≤ cfgD.total / cfgD.stride / cfgD.block_size - 1 →
      statesUpTo cfgD b = .ok st → steadyStep cfgD st b = .ok st' →
      (∀ p, st'.inkF p ≠ st.inkF p →
        p ∈ st.uninked ∧ p ∉ st'.uninked ∧
          st.inkF p = cfgD.total / cfgD.stride) ∧
      (∀ p ∈ st'.uninked, p ∈ st.uninked)) ∧
    (∀ b st, b ≤ cfgD.total / cfgD.stride / cfgD.block_size - 1 →
      statesUpTo cfgD b = .ok st → ∀ p ∈ st.uninked,
        st.inkF p = cfgD.total / cfgD.stride) ∧
    (∀ b d st st', b + d ≤ cfgD.total / cfgD.stride / cfgD.block_size - 1 →
      statesUpTo cfgD b = .ok st → statesUpTo cfgD (b + d) = .ok st' →
      ∀ p, st.inkF p ≠ cfgD.total / cfgD.stride → st'.inkF p = st.inkF p) ∧
    (∀ st res,
      statesUpTo cfgD (cfgD.total / cfgD.stride / cfgD.block_size - 1) = .ok st →
      finalBlock cfgD st = .ok res →
      (∀ p, res.ink_frame p ≠ st.inkF p → p ∈ st.uninked) ∧
      res.uninked = [] ∧
      (∀ p, st.inkF p ≠ cfgD.total / cfgD.stride →
        res.ink_frame p = st.inkF p))) :=
  ⟨⟨by decide, by decide, by decide⟩,
    claim_C5_amended cfgD (by decide) (by decide) (by decide)⟩

/-! ### Claim C3 -/

theorem renderF_eq_renderS (m : Pix → Nat) (g : Nat) (p : Pix) :
    renderF m g p = renderS m g p := by
  unfold renderF renderS
  by_cases hle : m p ≤ g
  · rw [if_neg (by omega), if_pos hle]
  · rw [if_pos (by omega), if_neg hle]

/-- C3: causal rendering.  In every completed run, every frame written to the
output — in the steady-state loop and in the final block alike — has, at
every pixel, the value black (0) if the pixel's final recorded transition is
at most the frame's index and white (255) otherwise. -/
theorem claim_C3 (c : Cfg) (hbs : 1 ≤ c.block_size) (hs : 1 ≤ c.stride)
    (res : RunResult) (h : inker c = .ok res) :
    ∀ gf ∈ res.out, ∀ p,
      gf.2 p = if res.ink_frame p ≤ gf.1 then 0 else 255 := by
  obtain ⟨heff, st, hst, hfin⟩ := inker_ok_parts h
  have hdiv2 : 2 ≤ c.total / c.stride / c.block_size := by
    rw [Nat.le_div_iff_mul_le (by omega : 0 < c.block_size)]
    omega
  have hinv := statesUpTo_inv c hbs hs heff _ (le_refl _) st hst
  obtain ⟨trip, hfold, hink, _, _, _, hout⟩ := finalBlock_ok_parts hfin
  obtain ⟨A1, A2, A3, A4, A5⟩ := final_fold_ok st.buffer c.bw_cutoff c.block_size
    (c.total / c.stride / c.block_size - 1) st.uninked _ trip hfold
  have hle1 : (c.total / c.stride / c.block_size - 1) * c.block_size ≤
      c.total / c.stride := by
    calc (c.total / c.stride / c.block_size - 1) * c.block_size ≤
        c.total / c.stride / c.block_size * c.block_size :=
          Nat.mul_le_mul_right _ (by omega)
      _ ≤ c.total / c.stride := Nat.div_mul_le_self _ _
  intro gf hgf p
  rw [hout] at hgf
  rcases List.mem_append.1 hgf with hold | hnew
  · obtain ⟨hg1, hg2⟩ := hinv.2.2.2.2.2 gf hold
    rw [hg2 p, hink]
    by_cases hun : p ∈ st.uninked
    · have hsent : st.inkF p = c.total / c.stride := hinv.2.1 p hun
      rw [A4 p hun]
      unfold renderS
      rw [hsent, if_neg (by omega), if_neg (by omega)]
    · rw [A3 p hun]
      rfl
  · rw [List.mem_filterMap] at hnew
    obtain ⟨f, hf, hopt⟩ := hnew
    split at hopt
    · exact absurd hopt (by simp)
    · injection hopt with h2
      subst h2
      rw [hink]
      exact renderF_eq_renderS trip.1 _ p

theorem claim_C3_witness :
    (1 ≤ cfgD.block_size ∧ 1 ≤ cfgD.stride ∧ inker cfgD = .ok resD) ∧
    (∀ gf ∈ resD.out, ∀ p,
      gf.2 p = if resD.ink_frame p ≤ gf.1 then 0 else 255) :=
  ⟨⟨by decide, by decide, rfl⟩, claim_C3 cfgD (by decide) (by decide) resD rfl⟩

/-! ### Claim C2 -/

/-- C2 counterexample: on `cfgA` (ink-only mode, block_size 2) the run
completes having recorded the pixel's transition at frame index 2, yet no
frame at all is written: the scan found the sustained run at local offset 2
(equal to `block_size`, i.e. at the lookahead boundary), which matches no
index of the emitted range `0..block_size-1`, and in the next block the
pixel is no longer newly inked — so the frame whose index equals the
recorded transition time is skipped. -/
theorem claim_C2_cex :
    (inker cfgA).toOption.map
      (fun r => (r.ink_frame (0, 0), r.out.map Prod.fst)) = some (2, []) ∧
    cfgA.only_ink_frames = true := by
  exact ⟨by decide, by decide⟩

/-- C2 amended: in every completed run, a frame of a steady-state block is
emitted whenever some pixel's transition was recorded in that block at a
local offset below `block_size`, and every final-block frame at which a
pixel was newly recorded is emitted.  (A transition recorded at local
offset exactly `block_size` — the lookahead boundary, possible because the
scan may return `block_size` — triggers no emission, so a frame whose index
equals a recorded transition time may still be skipped in ink-only mode.) -/
theorem claim_C2_amended (c : Cfg) (hbs : 1 ≤ c.block_size) (hs : 1 ≤ c.stride)
    (res : RunResult) (h : inker c = .ok res) :
    (∀ b st st', b + 1 ≤ c.total / c.stride / c.block_size - 1 →
      statesUpTo c b = .ok st → steadyStep c st b = .ok st' →
      ∀ pf ∈ scanBlock st.buffer c.block_size c.bw_cutoff st.uninked,
        pf.2 < c.block_size →
          (b * c.block_size + pf.2) ∈ res.out.map Prod.fst) ∧
    (∀ st, statesUpTo c (c.total / c.stride / c.block_size - 1) = .ok st →
      ∀ p ∈ st.uninked,
        ((c.total / c.stride / c.block_size - 1) * c.block_size +
          finalF st.buffer c.bw_cutoff p) ∈ res.out.map Prod.fst) := by
  obtain ⟨heff, stN, hstN, hfin⟩ := inker_ok_parts h
  have hdiv2 : 2 ≤ c.total / c.stride / c.block_size := by
    rw [Nat.le_div_iff_mul_le (by omega : 0 < c.block_size)]
    omega
  obtain ⟨trip, hfold, _, _, _, _, hout⟩ := finalBlock_ok_parts hfin
  obtain ⟨A1, A2, A3, A4, A5⟩ := final_fold_ok stN.buffer c.bw_cutoff c.block_size
    (c.total / c.stride / c.block_size - 1) stN.uninked _ trip hfold
  constructor
  · intro b st st' hb hok hstep pf hpf hflt
    obtain ⟨_, _, _, _, _, P6⟩ := steadyStep_ok_parts hstep
    have hcontains : ((scanBlock st.buffer c.block_size c.bw_cutoff
        st.uninked).map Prod.snd).contains pf.2 = true := by
      rw [List.contains_eq_any_beq]
      rw [List.any_eq_true]
      exact ⟨pf.2, List.mem_map.2 ⟨pf, hpf, rfl⟩, by simp⟩
    have hpair : (b * c.block_size + pf.2,
        renderS st'.inkF (b * c.block_size + pf.2)) ∈ st'.out := by
      rw [P6]
      apply List.mem_append_right
      apply List.mem_filterMap.2
      refine ⟨pf.2, List.mem_range.2 hflt, ?_⟩
      rw [if_neg (by rw [hcontains]; simp)]
    have hsucc : statesUpTo c (b + 1) = .ok st' := by
      rw [statesUpTo_succ, hok]
      exact hstep
    have hstable := statesUpTo_stable c hbs hs heff (b + 1)
      (c.total / c.stride / c.block_size - 1 - (b + 1)) st' stN
      (by omega) hsucc (by rw [show b + 1 + (c.total / c.stride / c.block_size -
        1 - (b + 1)) = c.total / c.stride / c.block_size - 1 by omega]; exact hstN)
    have hpairN : (b * c.block_size + pf.2,
        renderS st'.inkF (b * c.block_size + pf.2)) ∈ stN.out :=
      hstable.1 _ hpair
    have hpairres : (b * c.block_size + pf.2,
        renderS st'.inkF (b * c.block_size + pf.2)) ∈ res.out := by
      rw [hout]
      exact List.mem_append_left _ hpairN
    exact List.mem_map.2 ⟨_, hpairres, rfl⟩
  · intro st hst p hp
    have hsame : st = stN := by
      rw [hst] at hstN
      injection hstN
    subst hsame
    have hinv := statesUpTo_inv c hbs hs heff _ (le_refl _) st hst
    have hy1 : 1 ≤ backRun (pixInk st.buffer p.1 p.2 c.bw_cutoff)
        (st.buffer.length - 1) := backRun_pos _ _ (A5 p hp)
    have hlen := hinv.2.2.2.2.1
    have hEeff := eff_le_effCount c.total c.stride hs
    have hnp1 : c.total / c.stride / c.block_size - 1 + 1 =
        c.total / c.stride / c.block_size := by omega
    have hle1 : (c.total / c.stride / c.block_size - 1 + 1) * c.block_size ≤
        c.total / c.stride := by
      rw [hnp1]
      exact Nat.div_mul_le_self _ _
    have e1 : (c.total / c.stride / c.block_size - 1 + 2) * c.block_size =
        (c.total / c.stride / c.block_size - 1) * c.block_size +
          2 * c.block_size := by ring
    have e2 : (c.total / c.stride / c.block_size - 1 + 1) * c.block_size =
        (c.total / c.stride / c.block_size - 1) * c.block_size +
          c.block_size := by ring
    have hflt : finalF st.buffer c.bw_cutoff p < st.buffer.length := by
      unfold finalF
      omega
    have hcontains : trip.2.2.contains (finalF st.buffer c.bw_cutoff p) = true := by
      rw [List.contains_eq_any_beq, List.any_eq_true]
      refine ⟨finalF st.buffer c.bw_cutoff p, ?_, by simp⟩
      rw [A2]
      simp only [List.nil_append]
      exact List.mem_map.2 ⟨p, hp, rfl⟩
    have hpair : ((c.total / c.stride / c.block_size - 1) * c.block_size +
        finalF st.buffer c.bw_cutoff p,
        renderF trip.1 ((c.total / c.stride / c.block_size - 1) * c.block_size +
          finalF st.buffer c.bw_cutoff p)) ∈ res.out := by
      rw [hout]
      apply List.mem_append_right
      apply List.mem_filterMap.2
      refine ⟨finalF st.buffer c.bw_cutoff p, List.mem_range.2 hflt, ?_⟩
      rw [if_neg (by rw [hcontains]; simp)]
    exact List.mem_map.2 ⟨_, hpair, rfl⟩

theorem claim_C2_amended_witness :
    (1 ≤ cfgD.block_size ∧ 1 ≤ cfgD.stride ∧ inker cfgD = .ok resD) ∧
    ((∀ b st st', b + 1 ≤ cfgD.total / cfgD.stride / cfgD.block_size - 1 →
      statesUpTo cfgD b = .ok st → steadyStep cfgD st b = .ok st' →
      ∀ pf ∈ scanBlock st.buffer cfgD.block_size cfgD.bw_cutoff st.uninked,
        pf.2 < cfgD.block_size →
          (b * cfgD.block_size + pf.2) ∈ resD.out.map Prod.fst) ∧
    (∀ st,
      statesUpTo cfgD (cfgD.total / cfgD.stride / cfgD.block_size - 1) = .ok st →
      ∀ p ∈ st.uninked,
        ((cfgD.total / cfgD.stride / cfgD.block_size - 1) * cfgD.block_size +
          finalF st.buffer cfgD.bw_cutoff p) ∈ resD.out.map Prod.fst)) :=
  ⟨⟨by decide, by decide, rfl⟩,
    claim_C2_amended cfgD (by decide) (by decide) resD rfl⟩
